import Mathlib

/-!
# Verification of the PICs_Manager media-pipeline core

A shallow embedding, in Lean 4, of the parts of the PICs_Manager repository
that the specification's claims are about:

* the Aggregator (`pkg/scanner/aggregator.go`): phase-2 archiving of staged
  series folders into alphabetic buckets, phase-3 merging within buckets with
  quarantine on conflict, and the final changelog computation;
* the Preprocessor (the `scanner` preprocessor source): grouping of image
  files into file families, repair of damaged base files from numbered
  variants, and content-hash deduplication;
* the Ingestor (`pkg/scanner/ingestor.go`): the per-image worker, the
  result collector, and the overwritten-file report of `Sync`;
* the task manager (`internal/task/manager.go`): task creation and the
  single-flight check of `StartNewScanTask`.

Modelling conventions:

* Go `map[string]T` values are association lists `List (String × T)`;
  map assignment is `amInsert` (replace-in-place or append), deletion is
  `amDelete`, lookup is `amLookup`.  Iteration order over a map is the list
  order; theorems that need order independence take permutation hypotheses.
* The filesystem is a flat list: either a set of directory paths
  (`List String`, for the Aggregator, whose workers only `Stat` and `Rename`
  whole directories) or a list of `(path, contents)` pairs
  (`List (String × String)`, for the Preprocessor and Ingestor, which read,
  delete and rename individual files).  `os.Rename` is modelled as removing
  the source entry and adding the destination; an oracle `renameOk`
  parameterises the possibility that a rename fails with an error.
* Image decoding, SHA-256 hashing, perceptual hashing, thumbnailing and
  transliteration (`go-unidecode`) are external black boxes; they enter as
  function parameters.  `unicode.IsLetter/IsNumber/ToUpper` are modelled by
  `Char.isAlpha/isDigit/toUpper`; in the one place the code applies them
  (phase 2 of the Aggregator) the argument is the output of `unidecode`,
  which is ASCII, where the two agree.
-/

namespace PICs

/-! ## Association-list model of Go maps -/

/-- Lookup in a Go map modelled as an association list. -/
def amLookup {α β : Type} [BEq α] (m : List (α × β)) (k : α) : Option β :=
  (m.find? (fun p => p.1 == k)).map (fun p => p.2)

/-- Whether the map has an entry for key `k`. -/
def amHasKey {α β : Type} [BEq α] (m : List (α × β)) (k : α) : Bool :=
  m.any (fun p => p.1 == k)

/-- Go map assignment `m[k] = v`: replace the binding in place if the key is
present, otherwise append a new binding. -/
def amInsert {α β : Type} [BEq α] (m : List (α × β)) (k : α) (v : β) :
    List (α × β) :=
  if amHasKey m k then m.map (fun p => if p.1 == k then (k, v) else p)
  else m ++ [(k, v)]

/-- Go `delete(m, k)`. -/
def amDelete {α β : Type} [BEq α] (m : List (α × β)) (k : α) : List (α × β) :=
  m.filter (fun p => !(p.1 == k))

/-- Go set-as-map insertion `s[k] = true` on a set modelled as a list. -/
def setInsert (s : List String) (k : String) : List String :=
  if s.contains k then s else s ++ [k]

/-- Keys of an association list. -/
def amKeys {α β : Type} (m : List (α × β)) : List α := m.map Prod.fst

/-! ## Aggregator (`pkg/scanner/aggregator.go`) -/

/-- The `maxRepairAttempts` constant of the preprocessor source. -/
def maxRepairAttempts : Nat := 5

/-- The `_agg` suffix for merged collection directories. -/
def aggSuffix : String := "_agg"

/-- Model of `findFirstAlphaNum` (aggregator.go): the first letter-or-digit rune of
`s`, upper-cased, or `'#'` when there is none. -/
def findFirstAlphaNum (s : String) : Char :=
  match s.data.find? (fun c => c.isAlpha || c.isDigit) with
  | some c => c.toUpper
  | none => '#'

/-- The bucket-name computation inside `archiveWorker`: the bucket is the
single-character directory `string(firstChar)` only when
`firstChar >= 'A' && firstChar <= 'Z'`, and `"#"` otherwise. -/
def archiveDirName (translitName : String) : String :=
  let firstChar := findFirstAlphaNum translitName
  if 'A' ≤ firstChar ∧ firstChar ≤ 'Z' then String.singleton firstChar
  else "#"

/-- Shared mutable state of an aggregator phase: the set of existing
directory paths, the `movedSet` map and the `unMovedSet` set. -/
structure MoveState where
  fs : List String
  moved : List (String × String)
  unmoved : List String
deriving Repr, DecidableEq

/-- One iteration of `archiveWorker` (phase 2) on one staged folder name:
compute the destination `<finalLibraryPath>/<bucket>/<folderName>`; if it
already exists record the source in `unMovedSet` and do not move; otherwise
rename (the rename itself may fail, also recorded in `unMovedSet`). -/
def archiveWorker (translit : String → String) (renameOk : String → String → Bool)
    (stagingPath finalLibraryPath : String) (st : MoveState) (folderName : String) :
    MoveState :=
  let oldPath := stagingPath ++ "/" ++ folderName
  let newPath := finalLibraryPath ++ "/" ++ archiveDirName (translit folderName)
      ++ "/" ++ folderName
  if st.fs.contains newPath then
    { st with unmoved := setInsert st.unmoved oldPath }
  else if renameOk oldPath newPath then
    { st with fs := newPath :: st.fs.erase oldPath
              moved := amInsert st.moved oldPath newPath }
  else
    { st with unmoved := setInsert st.unmoved oldPath }

/-- Model of `phase2_archiveStagingFolders`: fold `archiveWorker` over the top-level
staging folder names (the mutex serialises the workers, so a run is a
sequence of `archiveWorker` iterations in some order). -/
def phase2Archive (translit : String → String) (renameOk : String → String → Bool)
    (stagingPath finalLibraryPath : String) (folderNames : List String)
    (fs0 : List String) : MoveState :=
  folderNames.foldl (archiveWorker translit renameOk stagingPath finalLibraryPath)
    ⟨fs0, [], []⟩

/-- Model of `groupMove` (phase 3): if the destination exists, record the source in
`unMovedSet` and move it to a fresh quarantine path instead of overwriting;
otherwise rename, recording either `movedSet[src] = dest` or, on a rename
error, `unMovedSet[src] = true`. -/
def groupMove (renameOk : String → String → Bool) (quarantineDest : String → String)
    (src dest : String) (st : MoveState) : MoveState :=
  if st.fs.contains dest then
    let st1 := { st with unmoved := setInsert st.unmoved src }
    if renameOk src (quarantineDest src) then
      { st1 with fs := quarantineDest src :: st1.fs.erase src }
    else st1
  else if renameOk src dest then
    { st with fs := dest :: st.fs.erase src
              moved := amInsert st.moved src dest }
  else
    { st with unmoved := setInsert st.unmoved src }

/-- Model of `phase3_aggregateWithinArchiveFolders`, reduced to its `groupMove` calls:
the aggregation workers derive a list of `(member, targetAggDir/member)`
move requests from the bucket contents and the grouping rules, and each
request results in exactly one `groupMove` call (serialised by the mutex).
The phase starts with fresh `movedSet`/`unMovedSet` maps. -/
def phase3Aggregate (renameOk : String → String → Bool)
    (quarantineDest : String → String) (reqs : List (String × String))
    (fs0 : List String) : MoveState :=
  reqs.foldl (fun st r => groupMove renameOk quarantineDest r.1 r.2 st)
    ⟨fs0, [], []⟩

/-- The final-changelog computation at the end of `AggregateAndArchive`:
build the union of `archiveMoved` and `groupMoved` (map writes, later keys
overwrite), collect `intersection := { src ∈ keys archiveMoved | src ∈
groupUnMoved }`, and delete every key of `intersection` from the union. -/
def computeFinalChangelog (archiveMoved groupMoved : List (String × String))
    (groupUnMoved : List String) : List (String × String) :=
  let u1 := archiveMoved.foldl (fun acc p => amInsert acc p.1 p.2) []
  let u2 := groupMoved.foldl (fun acc p => amInsert acc p.1 p.2) u1
  let intersection := (archiveMoved.map Prod.fst).filter
    (fun k => groupUnMoved.contains k)
  intersection.foldl (fun acc k => amDelete acc k) u2

/-- A whole `AggregateAndArchive` run after phase 1: phase 2 over the staged
folder names, phase 3 over the group-move requests, then the changelog. -/
def aggregateAndArchive (translit : String → String)
    (renameOk : String → String → Bool) (quarantineDest : String → String)
    (stagingPath finalLibraryPath : String) (folderNames : List String)
    (reqs : List (String × String)) (fs0 : List String) :
    MoveState × MoveState × List (String × String) :=
  let st2 := phase2Archive translit renameOk stagingPath finalLibraryPath
    folderNames fs0
  let st3 := phase3Aggregate renameOk quarantineDest reqs st2.fs
  (st2, st3, computeFinalChangelog st2.moved st3.moved st3.unmoved)

/-! ## Path helpers (Go `path/filepath` as used by the pipeline) -/

/-- Model of `filepath.Base`: the final path element (the characters after the last
`/`). -/
def fileNameOf (p : String) : String :=
  String.mk ((p.data.reverse.takeWhile (fun c => !(c == '/'))).reverse)

/-- Model of `filepath.Dir` (for the clean, separator-`/` paths the pipeline builds):
everything before the final path element, `"."` when there is none. -/
def dirOf (p : String) : String :=
  let rest := p.data.reverse.dropWhile (fun c => !(c == '/'))
  if rest.isEmpty then "." else String.mk (rest.drop 1).reverse

/-- Model of `strings.ToLower` restricted to ASCII (the paths the pipeline compares
case-insensitively are the scan's own file paths). -/
def strToLower (s : String) : String := String.mk (s.data.map Char.toLower)

/-- Model of `filepath.Join` of a directory and a file name, for the cases the
pipeline produces (`Join(".", f) = f`). -/
def joinPath (d f : String) : String := if d == "." then f else d ++ "/" ++ f

/-- Model of `filepath.Ext` of a file name (no separators): the suffix starting at the
final dot, or `""` when there is no dot. -/
def extOf (name : String) : String :=
  let rev := name.data.reverse
  match rev.findIdx? (fun c => c == '.') with
  | none => ""
  | some i => String.mk ((rev.take (i + 1)).reverse)

/-- Model of `isImageExtension` (preprocessor): extension in lower case is one of
`.jpg .jpeg .png .gif`. -/
def isImageExtension (path : String) : Bool :=
  let ext := strToLower (extOf (fileNameOf path))
  ext == ".jpg" || ext == ".jpeg" || ext == ".png" || ext == ".gif"

/-! ## Preprocessor (the `scanner` preprocessor source) -/

/-- A "file family": `fileGroup` of the preprocessor. -/
structure FileGroup where
  basePath : String
  numberedFiles : List (Nat × String)
deriving Repr, DecidableEq

/-- The `\w` class of Go's `regexp`: ASCII letters, digits and underscore. -/
def isWordChar (c : Char) : Bool := c.isAlphanum || c == '_'

/-- Digits-to-number, the effect of `strconv.Atoi` on a digit string (the
model uses `Nat`, so the `Atoi` overflow error on astronomically large
variant indices is not modelled). -/
def digitsToNat (ds : List Char) : Nat :=
  ds.foldl (fun n c => n * 10 + (c.toNat - '0'.toNat)) 0

/-- The optional `" (N)"` marker of the grouping regex: if `t` ends with
`' ' '(' digits ')'` (digits nonempty), return the remaining front and the
number. -/
def parseNumberSuffix (t : List Char) : Option (List Char × Nat) :=
  match t.reverse with
  | ')' :: rest =>
    let ds := rest.takeWhile (fun c => c.isDigit)
    if ds.isEmpty then none
    else
      match rest.drop ds.length with
      | '(' :: ' ' :: rbase => some (rbase.reverse, digitsToNat ds.reverse)
      | _ => none
  | _ => none

/-- The semantics of the grouping regex `^(.*?)(?: \((\d+)\))?(\.\w+)$` on a
file name: the extension capture is forced to the suffix from the final dot
(which must be followed by one or more word characters — no other dot can
match, since a later dot is not a word character), and the lazy base prefers
consuming a trailing `" (N)"` marker into the optional group when present.
Returns `(base, optional number, ext)`; `none` when the regex does not
match. -/
def parseGroupedName (fileName : String) : Option (String × Option Nat × String) :=
  let ext := extOf fileName
  if ext == "" then none
  else if (ext.data.drop 1).isEmpty || !(ext.data.drop 1).all isWordChar then none
  else
    let t := fileName.data.take (fileName.data.length - ext.data.length)
    match parseNumberSuffix t with
    | some (base, n) => some (String.mk base, some n, ext)
    | none => some (String.mk t, none, ext)

/-- One `WalkDir` visit of `scanAndGroupFiles`: skip non-image files and
regex misses; otherwise create the group entry if absent (this happens even
for a `" (0)"` marker, before the `num > 0` check) and record the file as
the base (no marker) or as numbered variant `num` (when `num > 0`). -/
def scanStep (groups : List (String × FileGroup)) (path : String) :
    List (String × FileGroup) :=
  if !isImageExtension path then groups
  else
    match parseGroupedName (fileNameOf path) with
    | none => groups
    | some (base, numOpt, ext) =>
      let key := strToLower (joinPath (dirOf path) (base ++ ext))
      let g0 := (amLookup groups key).getD ⟨"", []⟩
      match numOpt with
      | none => amInsert groups key { g0 with basePath := path }
      | some n =>
        if n > 0 then
          amInsert groups key
            { g0 with numberedFiles := amInsert g0.numberedFiles n path }
        else amInsert groups key g0

/-- Model of `scanAndGroupFiles`: fold the grouping step over the walked file list. -/
def scanAndGroupFiles (files : List String) : List (String × FileGroup) :=
  files.foldl scanStep []

/-- Model of `isImageFileDamaged`: `true` when the file cannot be opened (missing) or
its bytes do not decode as an image.  `decode` is the black-box
`image.Decode` success predicate on file contents. -/
def isImageFileDamaged (decode : String → Bool) (fs : List (String × String))
    (path : String) : Bool :=
  match amLookup fs path with
  | none => true
  | some c => !decode c

/-- Remove a file (`os.Remove`). -/
def fsRemove (fs : List (String × String)) (p : String) : List (String × String) :=
  amDelete fs p

/-- Rename a file (`os.Rename src dst`): the entry keyed `src` is now keyed
`dst`, contents unchanged. -/
def fsRename (fs : List (String × String)) (src dst : String) :
    List (String × String) :=
  fs.map (fun e => if e.1 == src then (dst, e.2) else e)

/-- The candidate path `fmt.Sprintf("%s (%d)%s", baseName, i, ext)` joined to
the base file's directory, as built by `findAndExecuteRepair`. -/
def candidatePath (basePath : String) (i : Nat) : String :=
  let name := fileNameOf basePath
  let ext := extOf name
  let baseName := String.mk (name.data.take (name.data.length - ext.data.length))
  joinPath (dirOf basePath) (baseName ++ " (" ++ toString i ++ ")" ++ ext)

/-- The iterative search of `findAndExecuteRepair`, from index `i` with
`fuel` attempts left: stop (leaving the filesystem unchanged) as soon as the
candidate path is not among the group's numbered files; replace the damaged
base with the first healthy candidate (`os.Remove` the base, then
`os.Rename` the candidate onto the base path); otherwise keep searching. -/
def repairLoop (decode : String → Bool) (g : FileGroup)
    (fs : List (String × String)) : Nat → Nat → List (String × String)
  | _, 0 => fs
  | i, fuel + 1 =>
    let cand := candidatePath g.basePath i
    if !(g.numberedFiles.any (fun pr => pr.2 == cand)) then fs
    else if !isImageFileDamaged decode fs cand then
      fsRename (fsRemove fs g.basePath) cand g.basePath
    else repairLoop decode g fs (i + 1) fuel

/-- Model of `findAndExecuteRepair`: search candidates `(1)` to `(maxRepairAttempts)`. -/
def findAndExecuteRepair (decode : String → Bool) (g : FileGroup)
    (fs : List (String × String)) : List (String × String) :=
  repairLoop decode g fs 1 maxRepairAttempts

/-- The dedup half of `reconciliationWorker`: for each numbered variant,
compute its content hash (skipping variants whose bytes cannot be read) and
delete it exactly when the hash equals the base hash. -/
def dedupVariants (sha : String → String) (baseHash : String)
    (variants : List (Nat × String)) (fs : List (String × String)) :
    List (String × String) :=
  variants.foldl
    (fun acc pr =>
      match amLookup acc pr.2 with
      | none => acc
      | some c => if sha c == baseHash then fsRemove acc pr.2 else acc)
    fs

/-- One `reconciliationWorker` iteration on one file group: skip groups with
no numbered variants or no base; repair when the base is damaged; otherwise
dedup against the base's content hash (a failure to read the base for
hashing skips the group). -/
def reconciliationWorker (decode : String → Bool) (sha : String → String)
    (fs : List (String × String)) (g : FileGroup) : List (String × String) :=
  if g.numberedFiles.isEmpty then fs
  else if g.basePath == "" then fs
  else if isImageFileDamaged decode fs g.basePath then
    findAndExecuteRepair decode g fs
  else
    match amLookup fs g.basePath with
    | none => fs
    | some baseContents => dedupVariants sha (sha baseContents) g.numberedFiles fs

/-- Result of `ProcessDirectory`: the filesystem after reconciliation and
the returned file list. -/
structure PreprocessResult where
  fs : List (String × String)
  finalFiles : List String
deriving Repr, DecidableEq

/-- Model of `ProcessDirectory`: group the walked files, reconcile every group, then
walk again and return every remaining (non-directory) file. -/
def processDirectory (decode : String → Bool) (sha : String → String)
    (fs : List (String × String)) : PreprocessResult :=
  let groups := scanAndGroupFiles (fs.map Prod.fst)
  let fs1 := groups.foldl (fun acc kg => reconciliationWorker decode sha acc kg.2) fs
  ⟨fs1, fs1.map Prod.fst⟩

/-- The specification-side description of the repair search: candidate
indices ascending from 1, cut off at the first index whose candidate file is
missing from the group (and after `maxRepairAttempts` attempts), and within
that prefix the first candidate that decodes. -/
def specRepairIndex (decode : String → Bool) (g : FileGroup)
    (fs : List (String × String)) : Option Nat :=
  ((List.range' 1 maxRepairAttempts).takeWhile
      (fun i => g.numberedFiles.any (fun pr => pr.2 == candidatePath g.basePath i))).find?
    (fun i => !isImageFileDamaged decode fs (candidatePath g.basePath i))

/-! ## Ingestor (`pkg/scanner/ingestor.go`) -/

/-- A catalog series as the image worker needs it. -/
structure Series where
  id : Nat
  name : String
deriving Repr, DecidableEq

/-- The bulk-write model built by `imageWorker`: a Mongo `UpdateOne` upsert
whose filter is `(seriesId, fileName)`, whose `$set` document carries
`filePath fileHash perceptualHash thumbnail updatedAt`, and whose
`$setOnInsert` document carries `_id seriesId fileName createdAt`. -/
structure ImageUpsert where
  filterSeriesId : Nat
  filterFileName : String
  setFilePath : String
  setFileHash : String
  setPerceptualHash : String
  setThumbnail : String
  setUpdatedAt : Nat
  onInsertId : Nat
  onInsertSeriesId : Nat
  onInsertFileName : String
  onInsertCreatedAt : Nat
deriving Repr, DecidableEq

/-- The `imageResult` payload of the ingestor: an optional write model plus the
`overwrittenPath` field consumed by the result collector. -/
structure ImageResult where
  writeModel : Option ImageUpsert
  overwrittenPath : String
deriving Repr, DecidableEq

/-- A catalog image record, as far as the upsert semantics is concerned. -/
structure ImageRecord where
  id : Nat
  seriesId : Nat
  fileName : String
  filePath : String
  fileHash : String
  perceptualHash : String
  thumbnail : String
  createdAt : Nat
  updatedAt : Nat
deriving Repr, DecidableEq

/-- Applying an `ImageUpsert` to the catalog ((seriesId, fileName) is unique
in the catalog): when a record matches the filter, only the `$set` fields
are written; otherwise a new record is inserted carrying both the `$set` and
the `$setOnInsert` fields. -/
def applyImageUpsert (catalog : List ImageRecord) (w : ImageUpsert) :
    List ImageRecord :=
  if catalog.any (fun r => r.seriesId == w.filterSeriesId
      && r.fileName == w.filterFileName) then
    catalog.map (fun r =>
      if r.seriesId == w.filterSeriesId && r.fileName == w.filterFileName then
        { r with filePath := w.setFilePath, fileHash := w.setFileHash,
                 perceptualHash := w.setPerceptualHash,
                 thumbnail := w.setThumbnail, updatedAt := w.setUpdatedAt }
      else r)
  else
    catalog ++ [{ id := w.onInsertId, seriesId := w.onInsertSeriesId,
                  fileName := w.onInsertFileName, filePath := w.setFilePath,
                  fileHash := w.setFileHash, perceptualHash := w.setPerceptualHash,
                  thumbnail := w.setThumbnail, createdAt := w.onInsertCreatedAt,
                  updatedAt := w.setUpdatedAt }]

/-- The part of an `imageWorker` iteration after the file bytes were read
(the Go code hashes the bytes before decoding; `sha` is total here, so
computing the hash at its use sites is equivalent): decode — on failure
delete the file and emit no result; on success skip when the hash is the
empty string or the series lookup fails, and otherwise emit the upsert,
with `overwrittenPath` left at its zero value `""`.
`decode` is `image.Decode` (returning the decoded image as an abstract value),
`sha` is `hasher.CalculateSHA256FromBytes`, `pHash` and `thumb` are the
perceptual hasher and `thumbnailer.CreateBase64`, `findOrCreate` is
`Series().FindOrCreateByName` (name := base of the file's directory), and
`now`/`freshId` stand for `time.Now()`/`primitive.NewObjectID()`. -/
def imageWorkerBody (decode : String → Option String) (sha : String → String)
    (pHash thumb : String → String) (findOrCreate : String → String → Option Series)
    (now : Nat) (freshId : Nat) (fs : List (String × String)) (filePath : String)
    (fileBytes : String) : List (String × String) × Option ImageResult :=
  match decode fileBytes with
  | none => (fsRemove fs filePath, none)
  | some img =>
    if sha fileBytes == "" then (fs, none)
    else
      match findOrCreate (fileNameOf (dirOf filePath)) filePath with
      | none => (fs, none)
      | some series =>
        (fs, some
          { writeModel := some
              { filterSeriesId := series.id,
                filterFileName := fileNameOf filePath,
                setFilePath := filePath, setFileHash := sha fileBytes,
                setPerceptualHash := pHash img, setThumbnail := thumb img,
                setUpdatedAt := now, onInsertId := freshId,
                onInsertSeriesId := series.id,
                onInsertFileName := fileNameOf filePath,
                onInsertCreatedAt := now },
            overwrittenPath := "" })

/-- One `imageWorker` job on `filePath`: read the bytes (`os.ReadFile`; a
read error logs and skips the job), then run the per-file body. -/
def imageWorker (decode : String → Option String) (sha : String → String)
    (pHash thumb : String → String) (findOrCreate : String → String → Option Series)
    (now : Nat) (freshId : Nat) (fs : List (String × String)) (filePath : String) :
    List (String × String) × Option ImageResult :=
  match amLookup fs filePath with
  | none => (fs, none)
  | some fileBytes =>
    imageWorkerBody decode sha pHash thumb findOrCreate now freshId fs filePath
      fileBytes

/-- A worker pool run over a job list (one file path per job), threading the
filesystem and collecting the emitted results in order. -/
def imageWorkerRun (decode : String → Option String) (sha : String → String)
    (pHash thumb : String → String) (findOrCreate : String → String → Option Series)
    (now : Nat) (freshId : Nat) :
    List (String × String) → List String →
    List (String × String) × List ImageResult
  | fs, [] => (fs, [])
  | fs, j :: rest =>
    let s1 := imageWorker decode sha pHash thumb findOrCreate now freshId fs j
    let s2 := imageWorkerRun decode sha pHash thumb findOrCreate now freshId s1.1 rest
    (s2.1, (s1.2.toList) ++ s2.2)

/-- The result collector of `processAllImages`: batch the write models, and
accumulate `res.overwrittenPath` for every result whose `overwrittenPath`
is nonempty.  Returns `(writes, allOverwritten)`. -/
def collectResults (results : List ImageResult) :
    List ImageUpsert × List String :=
  (results.filterMap (fun r => r.writeModel),
   (results.filter (fun r => r.overwrittenPath != "")).map
     (fun r => r.overwrittenPath))

/-- The `overwrittenFiles` list that `processAllImages` hands back to `Sync`
and `Sync` returns to its caller, for a run over the given jobs. -/
def syncOverwrittenFiles (decode : String → Option String) (sha : String → String)
    (pHash thumb : String → String) (findOrCreate : String → String → Option Series)
    (now : Nat) (freshId : Nat) (fs : List (String × String)) (jobs : List String) :
    List String :=
  (collectResults
    (imageWorkerRun decode sha pHash thumb findOrCreate now freshId fs jobs).2).2

/-! ## Task manager (`internal/task/manager.go`) -/

/-- The task state machine `TaskStatus`. -/
inductive TaskStatus where
  | pending
  | running
  | completed
  | failed
deriving Repr, DecidableEq, BEq

/-- Model of `StartNewScanTask`: under the manager mutex, reject with a conflict
error when any existing task is `running`; otherwise create the task in
state `pending` and return its id (the background `runScan` goroutine is
spawned afterwards). -/
def startNewScanTask (tasks : List (String × TaskStatus)) (newId : String) :
    List (String × TaskStatus) × Except String String :=
  if tasks.any (fun t => t.2 == TaskStatus.running) then
    (tasks, Except.error "another scan task is already in progress")
  else
    (tasks ++ [(newId, TaskStatus.pending)], Except.ok newId)

/-- The first locked section of `runScan`: the background worker claims its
task, setting its status to `running`. -/
def claimTask (tasks : List (String × TaskStatus)) (id : String) :
    List (String × TaskStatus) :=
  tasks.map (fun t => if t.1 == id then (t.1, TaskStatus.running) else t)

/-- The final locked section of `runScan`: the task is marked `completed`. -/
def finishTask (tasks : List (String × TaskStatus)) (id : String) :
    List (String × TaskStatus) :=
  tasks.map (fun t => if t.1 == id then (t.1, TaskStatus.completed) else t)

/-- The observable actions on the task map: an API request entering
`StartNewScanTask`, a background worker claiming its task, a background
worker finishing its task.  Each holds the manager mutex, so a concurrent
execution is an interleaving, i.e. a sequence of these actions. -/
inductive TaskAction where
  | start (id : String)
  | claim (id : String)
  | finish (id : String)

/-- One action applied to the task map. -/
def taskStep (tasks : List (String × TaskStatus)) : TaskAction →
    List (String × TaskStatus)
  | TaskAction.start id => (startNewScanTask tasks id).1
  | TaskAction.claim id => claimTask tasks id
  | TaskAction.finish id => finishTask tasks id

/-- A trace of actions applied in order. -/
def runTaskTrace (tasks : List (String × TaskStatus)) (as : List TaskAction) :
    List (String × TaskStatus) :=
  as.foldl taskStep tasks

/-- The number of tasks currently `running`. -/
def countRunning (tasks : List (String × TaskStatus)) : Nat :=
  (tasks.filter (fun t => t.2 == TaskStatus.running)).length

/-- Every file recorded in a `FileGroup` by the scan has an image
extension (the scan skips all other files): the invariant the
reconciliation worker's footprint argument rests on. -/
def GroupImageWF (g : FileGroup) : Prop :=
  (g.basePath = "" ∨ isImageExtension g.basePath = true) ∧
  ∀ pr ∈ g.numberedFiles, isImageExtension pr.2 = true

/-- Both aggregator move workers record each processed unit under a source
key, either as `movedSet[key] = v` (for some destination `v`) leaving
`unMovedSet` alone, or as `unMovedSet[key] = true` leaving `movedSet`
alone.  This common shape of `archiveWorker` and `groupMove` is what the
bookkeeping lemmas about the phases depend on. -/
def MoveStepSpec {ι : Type} (step : MoveState → ι → MoveState)
    (key : ι → String) : Prop :=
  ∀ st x,
    ((∃ v, (step st x).moved = amInsert st.moved (key x) v) ∧
      (step st x).unmoved = st.unmoved) ∨
    ((step st x).moved = st.moved ∧
      (step st x).unmoved = setInsert st.unmoved (key x))

/-! ## Lemmas about the association-list map model -/

theorem amLookup_nil {α β : Type} [BEq α] (k : α) :
    amLookup ([] : List (α × β)) k = none := rfl

theorem amLookup_cons {α β : Type} [BEq α] (a : α) (b : β) (m : List (α × β))
    (k : α) :
    amLookup ((a, b) :: m) k = if a == k then some b else amLookup m k := by
  by_cases h : (a == k) = true
  · rw [amLookup, List.find?_cons_of_pos _ (by simpa using h)]
    simp [h]
  · rw [amLookup, List.find?_cons_of_neg _ (by simpa using h), if_neg h]
    rfl

theorem amLookup_append {α β : Type} [BEq α] (m₁ m₂ : List (α × β)) (k : α) :
    amLookup (m₁ ++ m₂) k = (amLookup m₁ k).or (amLookup m₂ k) := by
  unfold amLookup
  rw [List.find?_append]
  cases List.find? (fun p => p.1 == k) m₁ <;> simp

theorem amHasKey_cons {α β : Type} [BEq α] (a : α) (b : β) (t : List (α × β))
    (k : α) : amHasKey ((a, b) :: t) k = ((a == k) || amHasKey t k) := by
  simp [amHasKey, List.any_cons]

theorem amLookup_eq_none {α β : Type} [BEq α] (m : List (α × β)) (k : α) :
    amLookup m k = none ↔ amHasKey m k = false := by
  unfold amLookup amHasKey
  rw [Option.map_eq_none', List.find?_eq_none]
  constructor
  · intro h
    rw [← Bool.not_eq_true, List.any_eq_true]
    rintro ⟨p, hp, hpk⟩
    exact h p hp hpk
  · intro h p hp hpk
    rw [← Bool.not_eq_true, List.any_eq_true] at h
    exact h ⟨p, hp, hpk⟩

theorem amHasKey_of_amLookup_eq_some {α β : Type} [BEq α] {m : List (α × β)}
    {k : α} {v : β} (h : amLookup m k = some v) : amHasKey m k = true := by
  cases hk : amHasKey m k with
  | false =>
    rw [(amLookup_eq_none m k).mpr hk] at h
    exact Option.noConfusion h
  | true => rfl

theorem amLookup_eq_some_of_mem {α β : Type} [BEq α] [LawfulBEq α]
    {m : List (α × β)} {k : α} {v : β} (hmem : (k, v) ∈ m)
    (hnd : (amKeys m).Nodup) : amLookup m k = some v := by
  induction m with
  | nil => cases hmem
  | cons p t ih =>
    rw [amKeys, List.map_cons, List.nodup_cons] at hnd
    rcases List.mem_cons.mp hmem with heq | ht
    · rw [← heq]
      simp [amLookup_cons]
    · have hk : k ∈ amKeys t := List.mem_map.mpr ⟨(k, v), ht, rfl⟩
      have hne : ¬(p.1 == k) = true := by
        intro hcon
        exact hnd.1 (by rwa [eq_of_beq hcon])
      cases p with
      | mk a b =>
        rw [amLookup_cons, if_neg hne]
        exact ih ht hnd.2

theorem mem_amKeys_of_amHasKey {α β : Type} [BEq α] [LawfulBEq α]
    {m : List (α × β)} {k : α} (h : amHasKey m k = true) : k ∈ amKeys m := by
  rcases List.any_eq_true.mp h with ⟨p, hp, hpk⟩
  exact List.mem_map.mpr ⟨p, hp, (eq_of_beq hpk)⟩

theorem amHasKey_of_mem_amKeys {α β : Type} [BEq α] [LawfulBEq α]
    {m : List (α × β)} {k : α} (h : k ∈ amKeys m) : amHasKey m k = true := by
  rcases List.mem_map.mp h with ⟨p, hp, hpk⟩
  exact List.any_eq_true.mpr ⟨p, hp, by rw [hpk]; exact beq_self_eq_true k⟩

theorem amLookup_map_subst {α β : Type} [BEq α] [LawfulBEq α]
    (m : List (α × β)) (k : α) (v : β) (k' : α) :
    amLookup (m.map (fun p => if p.1 == k then (k, v) else p)) k' =
      if k == k' then (if amHasKey m k then some v else none)
      else amLookup m k' := by
  induction m with
  | nil => simp [amLookup, amHasKey]
  | cons p t ih =>
    obtain ⟨a, b⟩ := p
    rw [List.map_cons]
    by_cases hpk : (a == k) = true
    · have hhead : (if ((a, b).1 == k) = true then (k, v) else (a, b)) = (k, v) := by
        simp [hpk]
      rw [hhead, amLookup_cons, amHasKey_cons, hpk, Bool.true_or]
      by_cases hkk : (k == k') = true
      · rw [if_pos hkk, if_pos hkk, if_pos rfl]
      · rw [if_neg hkk, ih, if_neg hkk, if_neg hkk, amLookup_cons, if_neg]
        intro hak
        exact hkk (by rw [← eq_of_beq hpk]; exact hak)
    · have hpk' : (a == k) = false := by simpa using hpk
      have hhead : (if ((a, b).1 == k) = true then (k, v) else (a, b)) = (a, b) := by
        simp [hpk']
      rw [hhead, amLookup_cons, amHasKey_cons, hpk', Bool.false_or]
      by_cases hak : (a == k') = true
      · have hkk : ¬(k == k') = true := by
          intro hcon
          apply hpk
          rw [eq_of_beq hak, ← eq_of_beq hcon]
          exact beq_self_eq_true k
        rw [if_pos hak, if_neg hkk, amLookup_cons, if_pos hak]
      · rw [if_neg hak, ih, amLookup_cons, if_neg hak]

theorem amLookup_amInsert {α β : Type} [BEq α] [LawfulBEq α]
    (m : List (α × β)) (k : α) (v : β) (k' : α) :
    amLookup (amInsert m k v) k' = if k == k' then some v else amLookup m k' := by
  unfold amInsert
  by_cases hk : amHasKey m k = true
  · rw [if_pos hk, amLookup_map_subst, hk]
    simp
  · rw [if_neg hk, amLookup_append]
    by_cases hkk : (k == k') = true
    · have : amLookup m k' = none := by
        rw [amLookup_eq_none]
        rw [← eq_of_beq hkk]
        simpa using hk
      rw [this, if_pos hkk, Option.none_or, amLookup_cons, if_pos hkk]
    · rw [if_neg hkk, amLookup_cons, if_neg hkk, amLookup_nil, Option.or_none]

theorem amHasKey_eq_isSome {α β : Type} [BEq α] (m : List (α × β)) (k : α) :
    amHasKey m k = (amLookup m k).isSome := by
  cases h : amLookup m k with
  | none => simpa using (amLookup_eq_none m k).mp h
  | some v => simp [amHasKey_of_amLookup_eq_some h]

theorem amHasKey_amInsert {α β : Type} [BEq α] [LawfulBEq α]
    (m : List (α × β)) (k : α) (v : β) (k' : α) :
    amHasKey (amInsert m k v) k' = ((k == k') || amHasKey m k') := by
  rw [amHasKey_eq_isSome, amLookup_amInsert]
  by_cases hkk : (k == k') = true
  · simp [hkk]
  · simp only [hkk, if_false, Bool.false_or]
    exact (amHasKey_eq_isSome m k').symm

theorem amLookup_amDelete {α β : Type} [BEq α] [LawfulBEq α]
    (m : List (α × β)) (k k' : α) :
    amLookup (amDelete m k) k' = if k == k' then none else amLookup m k' := by
  induction m with
  | nil => simp [amDelete, amLookup]
  | cons p t ih =>
    obtain ⟨a, b⟩ := p
    unfold amDelete at ih ⊢
    rw [List.filter_cons]
    by_cases hpk : (a == k) = true
    · have hcond : (!((a, b).1 == k)) = false := by simp [hpk]
      rw [hcond, if_neg (by simp), ih]
      by_cases hkk : (k == k') = true
      · rw [if_pos hkk, if_pos hkk]
      · rw [if_neg hkk, if_neg hkk, amLookup_cons, if_neg]
        intro hak
        exact hkk (by rw [← eq_of_beq hpk]; exact hak)
    · have hpk' : (a == k) = false := by simpa using hpk
      have hcond : (!((a, b).1 == k)) = true := by simp [hpk']
      rw [hcond, if_pos rfl, amLookup_cons, ih, amLookup_cons]
      by_cases hak : (a == k') = true
      · have hkk : ¬(k == k') = true := by
          intro hcon
          apply hpk
          rw [eq_of_beq hak, ← eq_of_beq hcon]
          exact beq_self_eq_true k
        rw [if_pos hak, if_neg hkk, if_pos hak]
      · by_cases hkk : (k == k') = true
        · rw [if_pos hkk, if_pos hkk, if_neg hak]
        · rw [if_neg hkk, if_neg hkk, if_neg hak]

theorem amKeys_amInsert {α β : Type} [BEq α] [LawfulBEq α]
    (m : List (α × β)) (k : α) (v : β) :
    amKeys (amInsert m k v) = if amHasKey m k then amKeys m else amKeys m ++ [k] := by
  unfold amInsert
  by_cases hk : amHasKey m k = true
  · rw [if_pos hk, if_pos hk]
    unfold amKeys
    rw [List.map_map]
    apply List.map_congr_left
    intro p _
    by_cases hpk : (p.1 == k) = true
    · simp [hpk, (eq_of_beq hpk).symm]
    · simp [hpk]
  · rw [if_neg hk, if_neg hk]
    unfold amKeys
    rw [List.map_append]
    rfl

theorem amKeys_nodup_amInsert {α β : Type} [BEq α] [LawfulBEq α]
    {m : List (α × β)} (k : α) (v : β) (hnd : (amKeys m).Nodup) :
    (amKeys (amInsert m k v)).Nodup := by
  rw [amKeys_amInsert]
  by_cases hk : amHasKey m k = true
  · rwa [if_pos hk]
  · rw [if_neg hk]
    rw [List.nodup_append]
    refine ⟨hnd, List.nodup_singleton k, ?_⟩
    intro a ha hb
    rw [List.mem_singleton] at hb
    subst hb
    exact absurd (amHasKey_of_mem_amKeys ha) (by simpa using hk)

theorem mem_setInsert (s : List String) (x k : String) :
    k ∈ setInsert s x ↔ k ∈ s ∨ k = x := by
  unfold setInsert
  by_cases hc : s.contains x = true
  · rw [if_pos hc]
    constructor
    · exact Or.inl
    · rintro (h | rfl)
      · exact h
      · exact List.mem_of_elem_eq_true hc
  · rw [if_neg hc]
    rw [List.mem_append, List.mem_singleton]

theorem amLookup_foldl_amInsert {α β : Type} [BEq α] [LawfulBEq α]
    (l : List (α × β)) (init : List (α × β)) (k : α) :
    amLookup (l.foldl (fun acc p => amInsert acc p.1 p.2) init) k =
      (amLookup l.reverse k).or (amLookup init k) := by
  induction l generalizing init with
  | nil => simp [amLookup]
  | cons p t ih =>
    rw [List.foldl_cons, ih, List.reverse_cons, amLookup_append,
      Option.or_assoc, amLookup_amInsert]
    cases p with
    | mk a b =>
      by_cases hak : (a == k) = true
      · rw [if_pos hak, amLookup_cons, if_pos hak]
        simp
      · rw [if_neg hak, amLookup_cons, if_neg hak, amLookup_nil]
        simp

theorem amLookup_reverse {α β : Type} [BEq α] [LawfulBEq α]
    (m : List (α × β)) (k : α) (hnd : (amKeys m).Nodup) :
    amLookup m.reverse k = amLookup m k := by
  induction m with
  | nil => rfl
  | cons p t ih =>
    obtain ⟨a, b⟩ := p
    have hnd' : a ∉ List.map Prod.fst t ∧ (List.map Prod.fst t).Nodup := by
      simpa [amKeys] using hnd
    rw [List.reverse_cons, amLookup_append, amLookup_cons]
    by_cases hak : (a == k) = true
    · have hnone : amLookup t.reverse k = none := by
        rw [amLookup_eq_none, ← Bool.not_eq_true]
        intro hcon
        apply hnd'.1
        have hmem := mem_amKeys_of_amHasKey hcon
        simp only [amKeys, List.map_reverse, List.mem_reverse] at hmem
        rwa [← eq_of_beq hak] at hmem
      rw [hnone, Option.none_or, if_pos hak, amLookup_cons, if_pos hak]
    · rw [if_neg hak, amLookup_cons, if_neg hak, amLookup_nil, Option.or_none]
      exact ih hnd'.2

theorem amLookup_foldl_amDelete {α β : Type} [BEq α] [LawfulBEq α]
    (ks : List α) (m : List (α × β)) (k : α) :
    amLookup (ks.foldl (fun acc x => amDelete acc x) m) k =
      if ks.contains k then none else amLookup m k := by
  induction ks generalizing m with
  | nil => simp
  | cons a t ih =>
    rw [List.foldl_cons, ih, List.contains_cons]
    by_cases hat : t.contains k = true
    · rw [if_pos hat, if_pos (by rw [hat, Bool.or_true])]
    · have hat' : t.contains k = false := by simpa using hat
      rw [if_neg hat, amLookup_amDelete, hat', Bool.or_false]
      by_cases hka : (k == a) = true
      · have hak : (a == k) = true := by
          rw [eq_of_beq hka]
          exact beq_self_eq_true a
        rw [if_pos hak, if_pos hka]
      · have hak : ¬(a == k) = true := by
          intro hcon
          apply hka
          rw [eq_of_beq hcon]
          exact beq_self_eq_true k
        rw [if_neg hak, if_neg hka]

/-! ## Lemmas about the changelog computation -/

theorem amHasKey_reverse {α β : Type} [BEq α] (m : List (α × β)) (k : α) :
    amHasKey m.reverse k = amHasKey m k := by
  unfold amHasKey
  exact List.any_reverse

theorem mem_of_amLookup_eq_some {α β : Type} [BEq α] [LawfulBEq α]
    {m : List (α × β)} {k : α} {v : β} (h : amLookup m k = some v) :
    (k, v) ∈ m := by
  unfold amLookup at h
  cases hf : List.find? (fun p => p.1 == k) m with
  | none => rw [hf] at h; cases h
  | some p =>
    rw [hf] at h
    have hp := List.find?_some hf
    have hm := List.mem_of_find?_eq_some hf
    obtain ⟨x, y⟩ := p
    have hx : x = k := by simpa using hp
    have hy : y = v := by simpa using h
    rw [hx, hy] at hm
    exact hm

theorem amHasKey_perm {α β : Type} [BEq α] {m m' : List (α × β)}
    (h : m.Perm m') (k : α) : amHasKey m k = amHasKey m' k := by
  unfold amHasKey
  apply Bool.eq_iff_iff.mpr
  rw [List.any_eq_true, List.any_eq_true]
  constructor
  · rintro ⟨p, hp, hpk⟩
    exact ⟨p, h.mem_iff.mp hp, hpk⟩
  · rintro ⟨p, hp, hpk⟩
    exact ⟨p, h.mem_iff.mpr hp, hpk⟩

theorem amLookup_perm {α β : Type} [BEq α] [LawfulBEq α] {m m' : List (α × β)}
    (h : m.Perm m') (hm : (amKeys m).Nodup) (k : α) :
    amLookup m k = amLookup m' k := by
  have hm' : (amKeys m').Nodup := ((h.map Prod.fst).nodup_iff).mp hm
  cases hv : amLookup m k with
  | none =>
    symm
    rw [amLookup_eq_none] at hv ⊢
    rw [← amHasKey_perm h]
    exact hv
  | some v =>
    exact (amLookup_eq_some_of_mem (h.mem_iff.mp (mem_of_amLookup_eq_some hv))
      hm').symm

theorem contains_perm {l l' : List String} (h : l.Perm l') (k : String) :
    l.contains k = l'.contains k := by
  apply Bool.eq_iff_iff.mpr
  rw [List.elem_iff, List.elem_iff]
  exact h.mem_iff

theorem computeFinalChangelog_lookup (a g : List (String × String))
    (u : List String) (k : String)
    (ha : (amKeys a).Nodup) (hg : (amKeys g).Nodup) :
    amLookup (computeFinalChangelog a g u) k =
      if amHasKey a k = true ∧ u.contains k = true then none
      else (amLookup g k).or (amLookup a k) := by
  unfold computeFinalChangelog
  rw [amLookup_foldl_amDelete, amLookup_foldl_amInsert, amLookup_foldl_amInsert,
    amLookup_nil, Option.or_none, amLookup_reverse g k hg,
    amLookup_reverse a k ha]
  have hcond : ((a.map Prod.fst).filter (fun x => u.contains x)).contains k = true
      ↔ (amHasKey a k = true ∧ u.contains k = true) := by
    rw [List.elem_iff, List.mem_filter]
    constructor
    · rintro ⟨hmem, hu⟩
      exact ⟨amHasKey_of_mem_amKeys hmem, hu⟩
    · rintro ⟨hkey, hu⟩
      exact ⟨mem_amKeys_of_amHasKey hkey, hu⟩
  by_cases h : ((a.map Prod.fst).filter (fun x => u.contains x)).contains k = true
  · rw [if_pos h, if_pos (hcond.mp h)]
  · rw [if_neg h, if_neg (fun hc => h (hcond.mpr hc))]

theorem amHasKey_computeFinalChangelog (a g : List (String × String))
    (u : List String) (k : String)
    (h : amHasKey (computeFinalChangelog a g u) k = true) :
    amHasKey a k = true ∨ amHasKey g k = true := by
  rw [amHasKey_eq_isSome] at h
  unfold computeFinalChangelog at h
  rw [amLookup_foldl_amDelete, amLookup_foldl_amInsert, amLookup_foldl_amInsert,
    amLookup_nil, Option.or_none] at h
  by_cases hc : ((a.map Prod.fst).filter (fun x => u.contains x)).contains k = true
  · rw [if_pos hc] at h
    cases h
  · rw [if_neg hc] at h
    cases hgl : amLookup g.reverse k with
    | some v =>
      right
      rw [← amHasKey_reverse]
      exact amHasKey_of_amLookup_eq_some hgl
    | none =>
      rw [hgl, Option.none_or] at h
      cases hal : amLookup a.reverse k with
      | some v =>
        left
        rw [← amHasKey_reverse]
        exact amHasKey_of_amLookup_eq_some hal
      | none => rw [hal] at h; cases h

/-! ## Claims C1 and C3: the changelog -/

/-- C1 (code_bug): the retraction step of `AggregateAndArchive` never fires.
The intersection is taken between the *source* keys of `archiveMoved`
(paths under the staging root) and the keys of `groupUnMoved` (paths under
the final library), so an entry whose *destination* was later judged
unmoved in phase 3 is kept.  Failing input: staging folder `Foo` is archived
to `lib/F/Foo` in phase 2; in phase 3 its merge into `lib/F/Foo_agg/Foo`
conflicts, so `lib/F/Foo` is quarantined and recorded un-moved — yet the
returned changelog still maps `staging/Foo` to the now-vacated
`lib/F/Foo`. -/
theorem C1_changelog_keeps_conflicted_destination :
    (aggregateAndArchive id (fun _ _ => true) (fun s => "q/" ++ fileNameOf s)
        "staging" "lib" ["Foo"] [("lib/F/Foo", "lib/F/Foo_agg/Foo")]
        ["staging/Foo", "lib/F", "lib/F/Foo_agg", "lib/F/Foo_agg/Foo"]).2.1.unmoved
      = ["lib/F/Foo"] ∧
    amLookup
      (aggregateAndArchive id (fun _ _ => true) (fun s => "q/" ++ fileNameOf s)
        "staging" "lib" ["Foo"] [("lib/F/Foo", "lib/F/Foo_agg/Foo")]
        ["staging/Foo", "lib/F", "lib/F/Foo_agg", "lib/F/Foo_agg/Foo"]).2.2
      "staging/Foo" = some "lib/F/Foo" := by
  constructor
  · rfl
  · rfl

/-- C3: the final changelog is exactly the set algebra
`(archiveMoved ∪ groupMoved) \ (archiveMoved ∩ groupUnMoved)` over the
accumulated phase-2/phase-3 maps (the union resolves a key present in both
maps to the `groupMoved` binding, the subtraction removes exactly the
`archiveMoved` keys that are members of `groupUnMoved`), and the outcome is
independent of the order in which the individual moves were recorded:
any permutations of the three accumulated collections produce the same
changelog. -/
theorem C3_changelog_algebra (a g a' g' : List (String × String))
    (u u' : List String) (k : String)
    (ha : (amKeys a).Nodup) (hg : (amKeys g).Nodup)
    (hpa : a.Perm a') (hpg : g.Perm g') (hpu : u.Perm u') :
    amLookup (computeFinalChangelog a g u) k =
      (if amHasKey a k = true ∧ u.contains k = true then none
       else (amLookup g k).or (amLookup a k)) ∧
    amLookup (computeFinalChangelog a' g' u') k =
      amLookup (computeFinalChangelog a g u) k := by
  have ha' : (amKeys a').Nodup := ((hpa.map Prod.fst).nodup_iff).mp ha
  have hg' : (amKeys g').Nodup := ((hpg.map Prod.fst).nodup_iff).mp hg
  refine ⟨computeFinalChangelog_lookup a g u k ha hg, ?_⟩
  rw [computeFinalChangelog_lookup a g u k ha hg,
    computeFinalChangelog_lookup a' g' u' k ha' hg',
    ← amHasKey_perm hpa, ← contains_perm hpu, ← amLookup_perm hpg hg,
    ← amLookup_perm hpa ha]

/-- Witness for C3 at concrete inputs. -/
theorem C3_changelog_algebra_witness :
    amLookup (computeFinalChangelog [("s1", "d1"), ("s2", "d2")] [("d2", "e2")]
      ["d1", "s2"]) "s2" =
      (if amHasKey [("s1", "d1"), ("s2", "d2")] "s2" = true ∧
          (["d1", "s2"] : List String).contains "s2" = true then none
       else (amLookup [("d2", "e2")] "s2").or
         (amLookup [("s1", "d1"), ("s2", "d2")] "s2")) ∧
    amLookup (computeFinalChangelog [("s2", "d2"), ("s1", "d1")] [("d2", "e2")]
      ["s2", "d1"]) "s2" =
      amLookup (computeFinalChangelog [("s1", "d1"), ("s2", "d2")] [("d2", "e2")]
      ["d1", "s2"]) "s2" :=
  C3_changelog_algebra [("s1", "d1"), ("s2", "d2")] [("d2", "e2")]
    [("s2", "d2"), ("s1", "d1")] [("d2", "e2")] ["d1", "s2"] ["s2", "d1"] "s2"
    (by decide) (by decide) (by decide) (by decide) (by decide)

/-! ## Bookkeeping of the aggregator phases -/

theorem archiveWorker_stepSpec (translit : String → String)
    (renameOk : String → String → Bool) (stagingPath finalLibraryPath : String) :
    MoveStepSpec (archiveWorker translit renameOk stagingPath finalLibraryPath)
      (fun fn => stagingPath ++ "/" ++ fn) := by
  intro st fn
  simp only [archiveWorker]
  split
  · right
    exact ⟨rfl, rfl⟩
  · split
    · left
      exact ⟨⟨_, rfl⟩, rfl⟩
    · right
      exact ⟨rfl, rfl⟩

theorem groupMove_stepSpec (renameOk : String → String → Bool)
    (quarantineDest : String → String) :
    MoveStepSpec (fun st r => groupMove renameOk quarantineDest r.1 r.2 st)
      Prod.fst := by
  intro st r
  simp only [groupMove]
  split
  · split
    · right
      exact ⟨rfl, rfl⟩
    · right
      exact ⟨rfl, rfl⟩
  · split
    · left
      exact ⟨⟨_, rfl⟩, rfl⟩
    · right
      exact ⟨rfl, rfl⟩

theorem foldMove_moved_hasKey {ι : Type} {step : MoveState → ι → MoveState}
    {key : ι → String} (hspec : MoveStepSpec step key) :
    ∀ (l : List ι) (st : MoveState) (k : String),
      amHasKey (l.foldl step st).moved k = true →
      amHasKey st.moved k = true ∨ k ∈ l.map key := by
  intro l
  induction l with
  | nil => exact fun st k h => Or.inl h
  | cons x t ih =>
    intro st k h
    rw [List.foldl_cons] at h
    rcases ih (step st x) k h with h' | h'
    · rcases hspec st x with ⟨⟨v, hm⟩, _⟩ | ⟨hm, _⟩
      · rw [hm, amHasKey_amInsert] at h'
        rcases Bool.or_eq_true_iff.mp h' with hx | hx
        · right
          rw [List.map_cons, ← eq_of_beq hx]
          exact List.mem_cons_self _ _
        · exact Or.inl hx
      · rw [hm] at h'
        exact Or.inl h'
    · right
      rw [List.map_cons]
      exact List.mem_cons_of_mem _ h'

theorem foldMove_unmoved_mem {ι : Type} {step : MoveState → ι → MoveState}
    {key : ι → String} (hspec : MoveStepSpec step key) :
    ∀ (l : List ι) (st : MoveState) (k : String),
      k ∈ (l.foldl step st).unmoved →
      k ∈ st.unmoved ∨ k ∈ l.map key := by
  intro l
  induction l with
  | nil => exact fun st k h => Or.inl h
  | cons x t ih =>
    intro st k h
    rw [List.foldl_cons] at h
    rcases ih (step st x) k h with h' | h'
    · rcases hspec st x with ⟨_, hu⟩ | ⟨_, hu⟩
      · rw [hu] at h'
        exact Or.inl h'
      · rw [hu] at h'
        rcases (mem_setInsert _ _ _).mp h' with hx | hx
        · exact Or.inl hx
        · right
          rw [List.map_cons, hx]
          exact List.mem_cons_self _ _
    · right
      rw [List.map_cons]
      exact List.mem_cons_of_mem _ h'

theorem foldMove_moved_nodup {ι : Type} {step : MoveState → ι → MoveState}
    {key : ι → String} (hspec : MoveStepSpec step key) :
    ∀ (l : List ι) (st : MoveState),
      (amKeys st.moved).Nodup → (amKeys (l.foldl step st).moved).Nodup := by
  intro l
  induction l with
  | nil => exact fun st h => h
  | cons x t ih =>
    intro st h
    rw [List.foldl_cons]
    apply ih
    rcases hspec st x with ⟨⟨v, hm⟩, _⟩ | ⟨hm, _⟩
    · rw [hm]
      exact amKeys_nodup_amInsert _ _ h
    · rw [hm]
      exact h

theorem foldMove_excl {ι : Type} {step : MoveState → ι → MoveState}
    {key : ι → String} (hspec : MoveStepSpec step key) :
    ∀ (l : List ι) (st : MoveState), (l.map key).Nodup →
      (∀ x ∈ l, amHasKey st.moved (key x) = false ∧ key x ∉ st.unmoved) →
      (∀ k, ¬(amHasKey st.moved k = true ∧ k ∈ st.unmoved)) →
      ∀ k, ¬(amHasKey (l.foldl step st).moved k = true ∧
             k ∈ (l.foldl step st).unmoved) := by
  intro l
  induction l with
  | nil =>
    intro st _ _ hbase
    simpa using hbase
  | cons x t ih =>
    intro st hnd hfree hbase
    rw [List.map_cons, List.nodup_cons] at hnd
    rw [List.foldl_cons]
    apply ih (step st x) hnd.2
    · intro y hy
      have hxy : key x ≠ key y := by
        intro hcon
        exact hnd.1 (hcon ▸ List.mem_map_of_mem key hy)
      have hfy := hfree y (List.mem_cons_of_mem x hy)
      have hbeq : (key x == key y) = false := by
        simpa using hxy
      rcases hspec st x with ⟨⟨v, hm⟩, hu⟩ | ⟨hm, hu⟩
      · constructor
        · rw [hm, amHasKey_amInsert, hbeq, Bool.false_or]
          exact hfy.1
        · rw [hu]
          exact hfy.2
      · constructor
        · rw [hm]
          exact hfy.1
        · rw [hu]
          intro hcon
          rcases (mem_setInsert _ _ _).mp hcon with h | h
          · exact hfy.2 h
          · exact hxy h.symm
    · intro k
      rintro ⟨hk1, hk2⟩
      rcases hspec st x with ⟨⟨v, hm⟩, hu⟩ | ⟨hm, hu⟩
      · rw [hm, amHasKey_amInsert] at hk1
        rw [hu] at hk2
        rcases Bool.or_eq_true_iff.mp hk1 with h | h
        · rw [← eq_of_beq h] at hk2
          exact (hfree x (List.mem_cons_self x t)).2 hk2
        · exact hbase k ⟨h, hk2⟩
      · rw [hm] at hk1
        rw [hu] at hk2
        rcases (mem_setInsert _ _ _).mp hk2 with h | h
        · exact hbase k ⟨hk1, h⟩
        · rw [h] at hk1
          rw [(hfree x (List.mem_cons_self x t)).1] at hk1
          cases hk1

/-! ## Claim C4: conflict safety of the aggregator -/

/-- C4: the aggregator never overwrites an existing destination.  In phase 2
(`archiveWorker`) an existing destination leaves the filesystem and
`movedSet` untouched and records the source un-moved; in phase 3
(`groupMove`) an existing destination is never renamed onto — the source is
recorded un-moved (and quarantined) while the destination survives; and no
source recorded un-moved in either phase ever appears as a key of the final
changelog.  The side conditions state structural facts of real runs: staged
folder names are distinct directory entries, each phase-3 member directory
is moved at most once, and phase-3 sources (paths in the final library) are
never phase-2 sources (paths in the staging area). -/
theorem C4_aggregator_never_overwrites (translit : String → String)
    (renameOk : String → String → Bool) (quarantineDest : String → String)
    (stagingPath finalLibraryPath : String) (folderNames : List String)
    (reqs : List (String × String)) (fs0 : List String)
    (hnd2 : (folderNames.map (fun fn => stagingPath ++ "/" ++ fn)).Nodup)
    (hnd3 : (reqs.map Prod.fst).Nodup)
    (hdisj : ∀ r ∈ reqs,
      r.1 ∉ folderNames.map (fun fn => stagingPath ++ "/" ++ fn)) :
    (∀ st fn,
      st.fs.contains (finalLibraryPath ++ "/" ++ archiveDirName (translit fn)
        ++ "/" ++ fn) = true →
      (archiveWorker translit renameOk stagingPath finalLibraryPath st fn).fs
          = st.fs ∧
      (archiveWorker translit renameOk stagingPath finalLibraryPath st fn).moved
          = st.moved ∧
      (stagingPath ++ "/" ++ fn) ∈
        (archiveWorker translit renameOk stagingPath finalLibraryPath st fn).unmoved) ∧
    (∀ st src dest, st.fs.contains dest = true → src ≠ dest →
      (groupMove renameOk quarantineDest src dest st).moved = st.moved ∧
      src ∈ (groupMove renameOk quarantineDest src dest st).unmoved ∧
      dest ∈ (groupMove renameOk quarantineDest src dest st).fs) ∧
    (∀ src,
      (src ∈ (aggregateAndArchive translit renameOk quarantineDest stagingPath
          finalLibraryPath folderNames reqs fs0).1.unmoved ∨
       src ∈ (aggregateAndArchive translit renameOk quarantineDest stagingPath
          finalLibraryPath folderNames reqs fs0).2.1.unmoved) →
      amLookup (aggregateAndArchive translit renameOk quarantineDest stagingPath
          finalLibraryPath folderNames reqs fs0).2.2 src = none) := by
  refine ⟨?_, ?_, ?_⟩
  · intro st fn hex
    simp only [archiveWorker]
    rw [if_pos hex]
    exact ⟨rfl, rfl, (mem_setInsert _ _ _).mpr (Or.inr rfl)⟩
  · intro st src dest hex hne
    simp only [groupMove]
    rw [if_pos hex]
    refine ⟨?_, ?_, ?_⟩
    · split <;> rfl
    · split <;> exact (mem_setInsert _ _ _).mpr (Or.inr rfl)
    · split
      · exact List.mem_cons_of_mem _
          ((List.mem_erase_of_ne (Ne.symm hne)).mpr (List.elem_iff.mp hex))
      · exact List.elem_iff.mp hex
  · intro src hsrc
    simp only [aggregateAndArchive] at hsrc ⊢
    set st2 := phase2Archive translit renameOk stagingPath finalLibraryPath
      folderNames fs0 with hst2
    set st3 := phase3Aggregate renameOk quarantineDest reqs st2.fs with hst3
    have hspec2 := archiveWorker_stepSpec translit renameOk stagingPath
      finalLibraryPath
    have hspec3 := groupMove_stepSpec renameOk quarantineDest
    have hexcl2 := foldMove_excl hspec2 folderNames ⟨fs0, [], []⟩ hnd2
      (fun x _ => ⟨rfl, by simp⟩) (fun k => by simp [amHasKey])
    have hexcl3 := foldMove_excl hspec3 reqs ⟨st2.fs, [], []⟩ hnd3
      (fun x _ => ⟨rfl, by simp⟩) (fun k => by simp [amHasKey])
    rw [amLookup_eq_none]
    by_contra hc
    have hc' : amHasKey (computeFinalChangelog st2.moved st3.moved st3.unmoved)
        src = true := by
      simpa using hc
    rcases hsrc with hs2 | hs3
    · have hmem2 : src ∈ folderNames.map (fun fn => stagingPath ++ "/" ++ fn) := by
        rcases foldMove_unmoved_mem hspec2 folderNames ⟨fs0, [], []⟩ src hs2 with
          h | h
        · cases h
        · exact h
      rcases amHasKey_computeFinalChangelog _ _ _ _ hc' with h2 | h3
      · exact hexcl2 src ⟨h2, hs2⟩
      · rcases foldMove_moved_hasKey hspec3 reqs ⟨st2.fs, [], []⟩ src h3 with
          h | h
        · rw [show amHasKey (MoveState.mk st2.fs [] []).moved src = false from rfl]
            at h
          cases h
        · rcases List.mem_map.mp h with ⟨r, hr, hrk⟩
          exact hdisj r hr (hrk ▸ hmem2)
    · have hmem3 : src ∈ reqs.map Prod.fst := by
        rcases foldMove_unmoved_mem hspec3 reqs ⟨st2.fs, [], []⟩ src hs3 with
          h | h
        · cases h
        · exact h
      rcases amHasKey_computeFinalChangelog _ _ _ _ hc' with h2 | h3
      · rcases foldMove_moved_hasKey hspec2 folderNames ⟨fs0, [], []⟩ src h2 with
          h | h
        · rw [show amHasKey (MoveState.mk fs0 [] []).moved src = false from rfl]
            at h
          cases h
        · rcases List.mem_map.mp hmem3 with ⟨r, hr, hrk⟩
          exact hdisj r hr (hrk ▸ h)
      · exact hexcl3 src ⟨h3, hs3⟩

/-- Witness for C4 at a concrete run: one staged folder, one phase-3 merge
request whose destination already exists. -/
theorem C4_aggregator_never_overwrites_witness :
    (∀ st fn,
      st.fs.contains ("lib" ++ "/" ++ archiveDirName (id fn) ++ "/" ++ fn) = true →
      (archiveWorker id (fun _ _ => true) "staging" "lib" st fn).fs = st.fs ∧
      (archiveWorker id (fun _ _ => true) "staging" "lib" st fn).moved = st.moved ∧
      ("staging" ++ "/" ++ fn) ∈
        (archiveWorker id (fun _ _ => true) "staging" "lib" st fn).unmoved) ∧
    (∀ st src dest, st.fs.contains dest = true → src ≠ dest →
      (groupMove (fun _ _ => true) (fun s => "q/" ++ s) src dest st).moved
          = st.moved ∧
      src ∈ (groupMove (fun _ _ => true) (fun s => "q/" ++ s) src dest st).unmoved ∧
      dest ∈ (groupMove (fun _ _ => true) (fun s => "q/" ++ s) src dest st).fs) ∧
    (∀ src,
      (src ∈ (aggregateAndArchive id (fun _ _ => true) (fun s => "q/" ++ s)
          "staging" "lib" ["Foo"] [("lib/F/Foo", "lib/F/Foo_agg/Foo")]
          ["staging/Foo", "lib/F", "lib/F/Foo_agg", "lib/F/Foo_agg/Foo"]).1.unmoved ∨
       src ∈ (aggregateAndArchive id (fun _ _ => true) (fun s => "q/" ++ s)
          "staging" "lib" ["Foo"] [("lib/F/Foo", "lib/F/Foo_agg/Foo")]
          ["staging/Foo", "lib/F", "lib/F/Foo_agg", "lib/F/Foo_agg/Foo"]).2.1.unmoved) →
      amLookup (aggregateAndArchive id (fun _ _ => true) (fun s => "q/" ++ s)
          "staging" "lib" ["Foo"] [("lib/F/Foo", "lib/F/Foo_agg/Foo")]
          ["staging/Foo", "lib/F", "lib/F/Foo_agg", "lib/F/Foo_agg/Foo"]).2.2 src
        = none) :=
  C4_aggregator_never_overwrites id (fun _ _ => true) (fun s => "q/" ++ s)
    "staging" "lib" ["Foo"] [("lib/F/Foo", "lib/F/Foo_agg/Foo")]
    ["staging/Foo", "lib/F", "lib/F/Foo_agg", "lib/F/Foo_agg/Foo"]
    (by decide) (by decide) (by decide)

/-! ## Claim C7: the bucket computation of phase 2 -/

theorem find?_decomp {α : Type} (p : α → Bool) (l : List α) (a : α)
    (h : l.find? p = some a) :
    ∃ pre suf, l = pre ++ a :: suf ∧ (∀ x ∈ pre, p x = false) ∧ p a = true := by
  induction l with
  | nil => cases h
  | cons x t ih =>
    by_cases hx : p x = true
    · rw [List.find?_cons_of_pos _ hx] at h
      obtain rfl : x = a := by injection h
      exact ⟨[], t, rfl, by simp, hx⟩
    · rw [List.find?_cons_of_neg _ hx] at h
      obtain ⟨pre, suf, hl, hpre, ha⟩ := ih h
      refine ⟨x :: pre, suf, by rw [hl, List.cons_append], ?_, ha⟩
      intro y hy
      rcases List.mem_cons.mp hy with rfl | hy'
      · simpa using hx
      · exact hpre y hy'

theorem find?_of_decomp {α : Type} (p : α → Bool) (pre : List α) (c : α)
    (suf : List α) (hpre : ∀ x ∈ pre, p x = false) (hc : p c = true) :
    (pre ++ c :: suf).find? p = some c := by
  induction pre with
  | nil => simpa using List.find?_cons_of_pos suf hc
  | cons x t ih =>
    rw [List.cons_append, List.find?_cons_of_neg]
    · exact ih (fun y hy => hpre y (List.mem_cons_of_mem x hy))
    · simp [hpre x (List.mem_cons_self x t)]

/-- C7 counterexample: for the staged folder name `3D` (transliteration is
the identity on this ASCII name) the first letter/digit is `'3'`, so the
claim predicts bucket `3` and destination `lib/3/3D`; the code computes
bucket `#` (digits fail the `'A' <= c && c <= 'Z'` test) and moves the
folder to `lib/#/3D`. -/
theorem C7_counterexample_digit_bucket :
    findFirstAlphaNum "3D" = '3' ∧
    archiveDirName "3D" ≠ String.singleton '3' ∧
    archiveDirName "3D" = "#" ∧
    (archiveWorker id (fun _ _ => true) "staging" "lib" ⟨["staging/3D"], [], []⟩
      "3D").moved = [("staging/3D", "lib/#/3D")] := by
  refine ⟨by decide, by decide, by decide, by decide⟩

/-- C7 as amended: for every successful phase-2 move, the destination is
`<finalLibraryPath>/<bucket>/<name>` where the bucket is computed from the
first letter/digit of the transliterated name: if there is no letter/digit
the bucket is `#`, and if the first letter/digit is `c` the bucket is the
upper-cased `c` when that upper-cased character is an ASCII letter `A`–`Z`,
and `#` otherwise (in particular a name whose first letter/digit is a digit
lands in `#`, not in a digit bucket). -/
theorem C7_bucket_amended (translit : String → String)
    (renameOk : String → String → Bool) (stagingPath finalLibraryPath : String)
    (st : MoveState) (fn : String)
    (hnotex : st.fs.contains (finalLibraryPath ++ "/" ++
      archiveDirName (translit fn) ++ "/" ++ fn) = false)
    (hok : renameOk (stagingPath ++ "/" ++ fn) (finalLibraryPath ++ "/" ++
      archiveDirName (translit fn) ++ "/" ++ fn) = true) :
    (archiveWorker translit renameOk stagingPath finalLibraryPath st fn).moved =
      amInsert st.moved (stagingPath ++ "/" ++ fn)
        (finalLibraryPath ++ "/" ++ archiveDirName (translit fn) ++ "/" ++ fn) ∧
    ((∀ c ∈ (translit fn).data, (c.isAlpha || c.isDigit) = false) →
      archiveDirName (translit fn) = "#") ∧
    (∀ pre c suf, (translit fn).data = pre ++ c :: suf →
      (c.isAlpha || c.isDigit) = true →
      (∀ x ∈ pre, (x.isAlpha || x.isDigit) = false) →
      archiveDirName (translit fn) =
        if 'A' ≤ c.toUpper ∧ c.toUpper ≤ 'Z' then String.singleton c.toUpper
        else "#") := by
  refine ⟨?_, ?_, ?_⟩
  · simp only [archiveWorker]
    rw [if_neg (by rw [hnotex]; exact Bool.false_ne_true), if_pos hok]
  · intro hall
    have hnone : findFirstAlphaNum (translit fn) = '#' := by
      unfold findFirstAlphaNum
      rw [List.find?_eq_none.mpr]
      intro x hx
      rw [hall x hx]
      exact Bool.false_ne_true
    unfold archiveDirName
    rw [hnone]
    rfl
  · intro pre c suf hdec hc hpre
    have hfind : findFirstAlphaNum (translit fn) = c.toUpper := by
      unfold findFirstAlphaNum
      rw [hdec, find?_of_decomp _ pre c suf (fun x hx => hpre x hx) hc]
    unfold archiveDirName
    rw [hfind]

/-- Witness for C7 as amended, at the concrete staged name `Foo` with
identity transliteration. -/
theorem C7_bucket_amended_witness :
    (archiveWorker id (fun _ _ => true) "staging" "lib" ⟨[], [], []⟩ "Foo").moved =
      amInsert ([] : List (String × String)) ("staging" ++ "/" ++ "Foo")
        ("lib" ++ "/" ++ archiveDirName (id "Foo") ++ "/" ++ "Foo") ∧
    ((∀ c ∈ (id "Foo" : String).data, (c.isAlpha || c.isDigit) = false) →
      archiveDirName (id "Foo") = "#") ∧
    (∀ pre c suf, (id "Foo" : String).data = pre ++ c :: suf →
      (c.isAlpha || c.isDigit) = true →
      (∀ x ∈ pre, (x.isAlpha || x.isDigit) = false) →
      archiveDirName (id "Foo") =
        if 'A' ≤ c.toUpper ∧ c.toUpper ≤ 'Z' then String.singleton c.toUpper
        else "#") :=
  C7_bucket_amended id (fun _ _ => true) "staging" "lib" ⟨[], [], []⟩ "Foo"
    (by decide) (by decide)

/-! ## Claim C5: repair of damaged base files -/

theorem repairLoop_eq_find (decode : String → Bool) (g : FileGroup)
    (fs : List (String × String)) :
    ∀ (fuel i : Nat),
      repairLoop decode g fs i fuel =
        match ((List.range' i fuel).takeWhile
            (fun j => g.numberedFiles.any
              (fun pr => pr.2 == candidatePath g.basePath j))).find?
            (fun j => !isImageFileDamaged decode fs (candidatePath g.basePath j)) with
        | none => fs
        | some j => fsRename (fsRemove fs g.basePath)
            (candidatePath g.basePath j) g.basePath := by
  intro fuel
  induction fuel with
  | zero => intro i; rfl
  | succ n ih =>
    intro i
    rw [List.range'_succ]
    by_cases hpres : (g.numberedFiles.any
        (fun pr => pr.2 == candidatePath g.basePath i)) = true
    · rw [@List.takeWhile_cons_of_pos Nat
          (fun j => g.numberedFiles.any (fun pr => pr.2 == candidatePath g.basePath j)) i _ hpres]
      by_cases hheal :
          (!isImageFileDamaged decode fs (candidatePath g.basePath i)) = true
      · rw [@List.find?_cons_of_pos Nat
          (fun j => !isImageFileDamaged decode fs (candidatePath g.basePath j))
          i _ hheal]
        simp only [repairLoop]
        rw [if_neg (by simp [hpres]), if_pos hheal]
      · rw [@List.find?_cons_of_neg Nat
          (fun j => !isImageFileDamaged decode fs (candidatePath g.basePath j))
          i _ hheal]
        simp only [repairLoop]
        rw [if_neg (by simp [hpres]), if_neg hheal]
        exact ih (i + 1)
    · have hpres' : (g.numberedFiles.any
          (fun pr => pr.2 == candidatePath g.basePath i)) = false :=
        Bool.eq_false_iff.mpr hpres
      rw [@List.takeWhile_cons_of_neg Nat
        (fun j => g.numberedFiles.any (fun pr => pr.2 == candidatePath g.basePath j)) i _
        (by
          show ¬(g.numberedFiles.any
            (fun pr => pr.2 == candidatePath g.basePath i)) = true
          rw [hpres']
          exact Bool.false_ne_true)]
      simp only [List.find?_nil, repairLoop]
      rw [if_pos (by rw [hpres']; rfl)]

theorem repairSearch_earlier (decode : String → Bool) (g : FileGroup)
    (fs : List (String × String)) :
    ∀ (fuel i iFound : Nat),
      (((List.range' i fuel).takeWhile
          (fun j => g.numberedFiles.any
            (fun pr => pr.2 == candidatePath g.basePath j))).find?
          (fun j => !isImageFileDamaged decode fs (candidatePath g.basePath j)))
        = some iFound →
      ∀ j, i ≤ j → j < iFound →
        (g.numberedFiles.any (fun pr => pr.2 == candidatePath g.basePath j)) = true ∧
        isImageFileDamaged decode fs (candidatePath g.basePath j) = true := by
  intro fuel
  induction fuel with
  | zero => intro i iF h; cases h
  | succ n ih =>
    intro i iF h j hij hj
    rw [List.range'_succ] at h
    by_cases hpres : (g.numberedFiles.any
        (fun pr => pr.2 == candidatePath g.basePath i)) = true
    · rw [@List.takeWhile_cons_of_pos Nat
          (fun j => g.numberedFiles.any (fun pr => pr.2 == candidatePath g.basePath j)) i _ hpres] at h
      by_cases hheal :
          (!isImageFileDamaged decode fs (candidatePath g.basePath i)) = true
      · rw [@List.find?_cons_of_pos Nat
          (fun j => !isImageFileDamaged decode fs (candidatePath g.basePath j))
          i _ hheal] at h
        have : iF = i := by injection h with h'; exact h'.symm
        omega
      · rw [@List.find?_cons_of_neg Nat
          (fun j => !isImageFileDamaged decode fs (candidatePath g.basePath j))
          i _ hheal] at h
        by_cases hji : j = i
        · subst hji
          exact ⟨hpres, by simpa using hheal⟩
        · exact ih (i + 1) iF h j (by omega) hj
    · have hpres' : (g.numberedFiles.any
          (fun pr => pr.2 == candidatePath g.basePath i)) = false :=
        Bool.eq_false_iff.mpr hpres
      rw [@List.takeWhile_cons_of_neg Nat
        (fun j => g.numberedFiles.any (fun pr => pr.2 == candidatePath g.basePath j)) i _
        (by
          show ¬(g.numberedFiles.any
            (fun pr => pr.2 == candidatePath g.basePath i)) = true
          rw [hpres']
          exact Bool.false_ne_true)] at h
      cases h

theorem repairSearch_found (decode : String → Bool) (g : FileGroup)
    (fs : List (String × String)) (fuel i iF : Nat)
    (h : (((List.range' i fuel).takeWhile
        (fun j => g.numberedFiles.any
          (fun pr => pr.2 == candidatePath g.basePath j))).find?
        (fun j => !isImageFileDamaged decode fs (candidatePath g.basePath j)))
      = some iF) :
    (g.numberedFiles.any (fun pr => pr.2 == candidatePath g.basePath iF)) = true ∧
    isImageFileDamaged decode fs (candidatePath g.basePath iF) = false := by
  constructor
  · exact @List.mem_takeWhile_imp Nat
      (fun j => g.numberedFiles.any (fun pr => pr.2 == candidatePath g.basePath j))
      (List.range' i fuel) iF
      (@List.mem_of_find?_eq_some Nat
        (fun j => !isImageFileDamaged decode fs (candidatePath g.basePath j)) iF _ h)
  · simpa using @List.find?_some Nat
      (fun j => !isImageFileDamaged decode fs (candidatePath g.basePath j)) iF _ h

theorem amLookup_repairMove (fs : List (String × String))
    (base cand q : String) (hne : cand ≠ base) :
    amLookup (fsRename (fsRemove fs base) cand base) q =
      if q = base then amLookup fs cand
      else if q = cand then none
      else amLookup fs q := by
  induction fs with
  | nil =>
    show (none : Option String) = _
    split
    · rfl
    · split <;> rfl
  | cons p t ih =>
    obtain ⟨a, b⟩ := p
    simp only [fsRemove, amDelete, fsRename] at ih ⊢
    rw [List.filter_cons]
    by_cases hab : (a == base) = true
    · rw [show (!((a, b).1 == base)) = false by simp [hab], if_neg (by simp)]
      have oa : a = base := eq_of_beq hab
      have hac : (a == cand) = false := by
        simp only [Bool.eq_false_iff]
        intro hcon
        exact hne ((eq_of_beq hcon).symm.trans oa)
      rw [ih]
      by_cases hqb : q = base
      · rw [if_pos hqb, if_pos hqb, amLookup_cons, if_neg (by simp [hac])]
      · rw [if_neg hqb, if_neg hqb]
        by_cases hqc : q = cand
        · rw [if_pos hqc, if_pos hqc]
        · rw [if_neg hqc, if_neg hqc, amLookup_cons, if_neg]
          intro hcon
          exact hqb ((eq_of_beq hcon).symm.trans oa)
    · rw [show (!((a, b).1 == base)) = true by simpa using hab, if_pos rfl,
        List.map_cons]
      have hab' : (a == base) = false := by simpa using hab
      by_cases hac : (a == cand) = true
      · rw [show (if ((a, b).1 == cand) = true then (base, (a, b).2) else (a, b))
            = (base, b) by simp [hac]]
        by_cases hqb : q = base
        · rw [amLookup_cons, if_pos (by rw [hqb]; exact beq_self_eq_true base),
            if_pos hqb, amLookup_cons, if_pos hac]
        · rw [amLookup_cons, if_neg (by
            simp only [beq_iff_eq]
            intro hcon
            exact hqb hcon.symm), ih, if_neg hqb, if_neg hqb]
          by_cases hqc : q = cand
          · rw [if_pos hqc, if_pos hqc]
          · rw [if_neg hqc, if_neg hqc, amLookup_cons, if_neg (by
              simp only [beq_iff_eq]
              intro hcon
              exact hqc ((eq_of_beq hac).symm.trans hcon).symm)]
      · rw [show (if ((a, b).1 == cand) = true then (base, (a, b).2) else (a, b))
            = (a, b) by simp [hac]]
        have hac' : (a == cand) = false := by simpa using hac
        by_cases haq : (a == q) = true
        · have oq : a = q := eq_of_beq haq
          have hqb : ¬ q = base := fun hcon =>
            hab (by rw [oq, hcon]; exact beq_self_eq_true base)
          have hqc : ¬ q = cand := fun hcon =>
            hac (by rw [oq, hcon]; exact beq_self_eq_true cand)
          rw [amLookup_cons, if_pos haq, if_neg hqb, if_neg hqc, amLookup_cons,
            if_pos haq]
        · rw [amLookup_cons, if_neg haq, ih]
          by_cases hqb : q = base
          · rw [if_pos hqb, if_pos hqb, amLookup_cons, if_neg (by simp [hac'])]
          · rw [if_neg hqb, if_neg hqb]
            by_cases hqc : q = cand
            · rw [if_pos hqc, if_pos hqc]
            · rw [if_neg hqc, if_neg hqc, amLookup_cons, if_neg haq]

/-- C5 counterexample: a group whose damaged base has a single decodable
variant numbered `(2)` — an ascending search over the numbered variants
would find and use it, but the repair loop stops at the missing `(1)` and
leaves everything in place.  Here `decode` accepts exactly the contents
`"GOOD"`, the base `r/a.jpg` holds `"BAD"` and the variant `r/a (2).jpg`
holds `"GOOD"`; after `ProcessDirectory` the base still holds `"BAD"` and
the variant still exists, contradicting the claimed replacement. -/
theorem C5_counterexample_gap_stops_repair :
    (processDirectory (fun c => c == "GOOD") (fun c => c)
        [("r/a.jpg", "BAD"), ("r/a (2).jpg", "GOOD")]).fs
      = [("r/a.jpg", "BAD"), ("r/a (2).jpg", "GOOD")] ∧
    ¬(amLookup (processDirectory (fun c => c == "GOOD") (fun c => c)
        [("r/a.jpg", "BAD"), ("r/a (2).jpg", "GOOD")]).fs "r/a.jpg"
        = some "GOOD" ∧
      amLookup (processDirectory (fun c => c == "GOOD") (fun c => c)
        [("r/a.jpg", "BAD"), ("r/a (2).jpg", "GOOD")]).fs "r/a (2).jpg"
        = none) := by
  constructor
  · rfl
  · intro hcon
    have h1 : amLookup (processDirectory (fun c => c == "GOOD") (fun c => c)
        [("r/a.jpg", "BAD"), ("r/a (2).jpg", "GOOD")]).fs "r/a.jpg"
        = some "BAD" := rfl
    rw [hcon.1] at h1
    exact absurd (Option.some.inj h1) (by decide)

/-- C5 as amended: `findAndExecuteRepair` searches candidate indices
`1, 2, …` in ascending order, but only while the candidate path
`base (i).ext` is present among the group's numbered files, and for at most
`maxRepairAttempts` indices; every index passed over is present but fails
to decode.  If the search finds a decodable candidate, the base is replaced
by it — afterwards the base path holds that candidate's bytes, the
candidate path is gone, and every other file is untouched.  If the search
ends (first gap, all candidates damaged, or attempts exhausted) the
filesystem — in particular the unrepairable base — is left in place. -/
theorem C5_repair_amended (decode : String → Bool) (g : FileGroup)
    (fs : List (String × String)) :
    (specRepairIndex decode g fs = none → findAndExecuteRepair decode g fs = fs) ∧
    (∀ i, specRepairIndex decode g fs = some i →
      (∀ j, 1 ≤ j → j < i →
        (g.numberedFiles.any (fun pr => pr.2 == candidatePath g.basePath j)) = true ∧
        isImageFileDamaged decode fs (candidatePath g.basePath j) = true) ∧
      (g.numberedFiles.any (fun pr => pr.2 == candidatePath g.basePath i)) = true ∧
      isImageFileDamaged decode fs (candidatePath g.basePath i) = false ∧
      (candidatePath g.basePath i ≠ g.basePath →
        amLookup (findAndExecuteRepair decode g fs) g.basePath
          = amLookup fs (candidatePath g.basePath i) ∧
        amLookup (findAndExecuteRepair decode g fs)
          (candidatePath g.basePath i) = none ∧
        (∀ q, q ≠ g.basePath → q ≠ candidatePath g.basePath i →
          amLookup (findAndExecuteRepair decode g fs) q = amLookup fs q))) := by
  have heq : findAndExecuteRepair decode g fs =
      match specRepairIndex decode g fs with
      | none => fs
      | some j => fsRename (fsRemove fs g.basePath)
          (candidatePath g.basePath j) g.basePath := by
    unfold findAndExecuteRepair specRepairIndex
    exact repairLoop_eq_find decode g fs maxRepairAttempts 1
  constructor
  · intro h
    rw [heq, h]
  · intro i hi
    have hiu : (((List.range' 1 maxRepairAttempts).takeWhile
        (fun j => g.numberedFiles.any
          (fun pr => pr.2 == candidatePath g.basePath j))).find?
        (fun j => !isImageFileDamaged decode fs (candidatePath g.basePath j)))
        = some i := hi
    refine ⟨?_, ?_, ?_, ?_⟩
    · intro j h1 hj
      exact repairSearch_earlier decode g fs maxRepairAttempts 1 i hiu j h1 hj
    · exact (repairSearch_found decode g fs maxRepairAttempts 1 i hiu).1
    · exact (repairSearch_found decode g fs maxRepairAttempts 1 i hiu).2
    · intro hne
      rw [heq, hi]
      refine ⟨?_, ?_, ?_⟩
      · rw [amLookup_repairMove fs g.basePath (candidatePath g.basePath i)
          g.basePath hne, if_pos rfl]
      · rw [amLookup_repairMove fs g.basePath (candidatePath g.basePath i)
          (candidatePath g.basePath i) hne, if_neg hne, if_pos rfl]
      · intro q hq1 hq2
        rw [amLookup_repairMove fs g.basePath (candidatePath g.basePath i) q hne,
          if_neg hq1, if_neg hq2]

/-- Witness for C5 as amended: base `r/a.jpg` damaged, variant `(1)`
decodable; the search finds index 1 and the repair moves the variant's
bytes onto the base path. -/
theorem C5_repair_amended_witness :
    amLookup (findAndExecuteRepair (fun c => c == "GOOD")
        ⟨"r/a.jpg", [(1, "r/a (1).jpg")]⟩
        [("r/a.jpg", "BAD"), ("r/a (1).jpg", "GOOD")]) "r/a.jpg"
      = amLookup [("r/a.jpg", "BAD"), ("r/a (1).jpg", "GOOD")]
          (candidatePath "r/a.jpg" 1) ∧
    amLookup (findAndExecuteRepair (fun c => c == "GOOD")
        ⟨"r/a.jpg", [(1, "r/a (1).jpg")]⟩
        [("r/a.jpg", "BAD"), ("r/a (1).jpg", "GOOD")])
      (candidatePath "r/a.jpg" 1) = none := by
  have h := (C5_repair_amended (fun c => c == "GOOD")
    ⟨"r/a.jpg", [(1, "r/a (1).jpg")]⟩
    [("r/a.jpg", "BAD"), ("r/a (1).jpg", "GOOD")]).2 1 (by rfl)
  have h2 := h.2.2.2 (by decide)
  exact ⟨h2.1, h2.2.1⟩

/-! ## Claim C6: content-hash deduplication -/

theorem dedupVariants_lookup_notin (sha : String → String) (baseHash : String)
    (variants : List (Nat × String)) (q : String)
    (hq : ∀ pr ∈ variants, pr.2 ≠ q) :
    ∀ fs, amLookup (dedupVariants sha baseHash variants fs) q = amLookup fs q := by
  induction variants with
  | nil => intro fs; rfl
  | cons v t ih =>
    intro fs
    have hv : v.2 ≠ q := hq v (List.mem_cons_self v t)
    have ht : ∀ pr ∈ t, pr.2 ≠ q := fun pr hpr =>
      hq pr (List.mem_cons_of_mem v hpr)
    cases hlv : amLookup fs v.2 with
    | none =>
      have hstep : dedupVariants sha baseHash (v :: t) fs
          = dedupVariants sha baseHash t fs := by
        show dedupVariants sha baseHash t
          (match amLookup fs v.2 with
           | none => fs
           | some c => if sha c == baseHash then fsRemove fs v.2 else fs) = _
        rw [hlv]
      rw [hstep]
      exact ih ht fs
    | some c =>
      have hstep : dedupVariants sha baseHash (v :: t) fs
          = dedupVariants sha baseHash t
              (if sha c == baseHash then fsRemove fs v.2 else fs) := by
        show dedupVariants sha baseHash t
          (match amLookup fs v.2 with
           | none => fs
           | some c => if sha c == baseHash then fsRemove fs v.2 else fs) = _
        rw [hlv]
      rw [hstep]
      by_cases hh : (sha c == baseHash) = true
      · rw [if_pos hh, ih ht]
        show amLookup (amDelete fs v.2) q = _
        rw [amLookup_amDelete, if_neg (by
          intro hcon
          exact hq v (List.mem_cons_self v t) (eq_of_beq hcon))]
      · rw [if_neg hh]
        exact ih ht fs

theorem dedupVariants_lookup_self (sha : String → String) (baseHash : String)
    (variants : List (Nat × String)) (pr : Nat × String)
    (hmem : pr ∈ variants) (hnd : (variants.map Prod.snd).Nodup) :
    ∀ fs c, amLookup fs pr.2 = some c →
      amLookup (dedupVariants sha baseHash variants fs) pr.2 =
        if sha c == baseHash then none else some c := by
  induction variants with
  | nil => cases hmem
  | cons v t ih =>
    intro fs c hc
    rw [List.map_cons, List.nodup_cons] at hnd
    rcases List.mem_cons.mp hmem with rfl | hpr
    · have htq : ∀ x ∈ t, x.2 ≠ pr.2 := by
        intro x hx hcon
        exact hnd.1 (hcon ▸ List.mem_map_of_mem Prod.snd hx)
      have hstep : dedupVariants sha baseHash (pr :: t) fs
          = dedupVariants sha baseHash t
              (if sha c == baseHash then fsRemove fs pr.2 else fs) := by
        show dedupVariants sha baseHash t
          (match amLookup fs pr.2 with
           | none => fs
           | some c => if sha c == baseHash then fsRemove fs pr.2 else fs) = _
        rw [hc]
      rw [hstep, dedupVariants_lookup_notin sha baseHash t pr.2 htq]
      by_cases hh : (sha c == baseHash) = true
      · rw [if_pos hh, if_pos hh]
        show amLookup (amDelete fs pr.2) pr.2 = none
        rw [amLookup_amDelete, if_pos (beq_self_eq_true pr.2)]
      · rw [if_neg hh, if_neg hh, hc]
    · have hvp : v.2 ≠ pr.2 := by
        intro hcon
        exact hnd.1 (hcon ▸ List.mem_map_of_mem Prod.snd hpr)
      cases hlv : amLookup fs v.2 with
      | none =>
        have hstep : dedupVariants sha baseHash (v :: t) fs
            = dedupVariants sha baseHash t fs := by
          show dedupVariants sha baseHash t
            (match amLookup fs v.2 with
             | none => fs
             | some c => if sha c == baseHash then fsRemove fs v.2 else fs) = _
          rw [hlv]
        rw [hstep]
        exact ih hpr hnd.2 fs c hc
      | some cv =>
        have hstep : dedupVariants sha baseHash (v :: t) fs
            = dedupVariants sha baseHash t
                (if sha cv == baseHash then fsRemove fs v.2 else fs) := by
          show dedupVariants sha baseHash t
            (match amLookup fs v.2 with
             | none => fs
             | some c => if sha c == baseHash then fsRemove fs v.2 else fs) = _
          rw [hlv]
        rw [hstep]
        by_cases hh : (sha cv == baseHash) = true
        · rw [if_pos hh]
          refine ih hpr hnd.2 _ c ?_
          show amLookup (amDelete fs v.2) pr.2 = some c
          rw [amLookup_amDelete, if_neg (fun hcon => hvp (eq_of_beq hcon))]
          exact hc
        · rw [if_neg hh]
          exact ih hpr hnd.2 fs c hc

/-- C6: when the base file of a group decodes, the reconciliation worker
deletes exactly the numbered variants whose content hash equals the base's
content hash: the base file survives with its bytes unchanged, a variant
whose hash equals the base hash is deleted, a variant whose hash differs
survives with its bytes unchanged — and, whenever the hash function is
collision-free, a variant is deleted precisely when its bytes equal the
base's bytes. -/
theorem C6_dedup_exact (decode : String → Bool) (sha : String → String)
    (g : FileGroup) (fs : List (String × String)) (baseContents : String)
    (hnum : g.numberedFiles.isEmpty = false)
    (hbp : (g.basePath == "") = false)
    (hbc : amLookup fs g.basePath = some baseContents)
    (hdec : decode baseContents = true)
    (hnd : (g.numberedFiles.map Prod.snd).Nodup)
    (hvb : ∀ pr ∈ g.numberedFiles, pr.2 ≠ g.basePath) :
    amLookup (reconciliationWorker decode sha fs g) g.basePath
      = some baseContents ∧
    (∀ pr ∈ g.numberedFiles, ∀ c, amLookup fs pr.2 = some c →
      amLookup (reconciliationWorker decode sha fs g) pr.2 =
        if sha c == sha baseContents then none else some c) ∧
    (Function.Injective sha →
      ∀ pr ∈ g.numberedFiles, ∀ c, amLookup fs pr.2 = some c →
        (amLookup (reconciliationWorker decode sha fs g) pr.2 = none ↔
          c = baseContents)) := by
  have hdam : isImageFileDamaged decode fs g.basePath = false := by
    unfold isImageFileDamaged
    rw [hbc]
    simp [hdec]
  have hred : reconciliationWorker decode sha fs g =
      dedupVariants sha (sha baseContents) g.numberedFiles fs := by
    unfold reconciliationWorker
    rw [if_neg (by rw [hnum]; exact Bool.false_ne_true),
      if_neg (by rw [hbp]; exact Bool.false_ne_true),
      if_neg (by rw [hdam]; exact Bool.false_ne_true), hbc]
  refine ⟨?_, ?_, ?_⟩
  · rw [hred, dedupVariants_lookup_notin sha (sha baseContents) g.numberedFiles
      g.basePath hvb fs]
    exact hbc
  · intro pr hpr c hc
    rw [hred]
    exact dedupVariants_lookup_self sha (sha baseContents) g.numberedFiles pr
      hpr hnd fs c hc
  · intro hinj pr hpr c hc
    rw [hred, dedupVariants_lookup_self sha (sha baseContents) g.numberedFiles pr
      hpr hnd fs c hc]
    by_cases hh : (sha c == sha baseContents) = true
    · rw [if_pos hh]
      simp only [true_iff]
      exact hinj (eq_of_beq hh)
    · rw [if_neg hh]
      constructor
      · intro hcon
        cases hcon
      · intro hcon
        exact absurd (by rw [hcon]; exact beq_self_eq_true (sha baseContents)) hh

/-- Witness for C6: base `r/b.jpg` healthy with bytes `X`; variant `(1)` is
byte-identical (deleted), variant `(2)` differs (kept). -/
theorem C6_dedup_exact_witness :
    amLookup (reconciliationWorker (fun c => c != "") (fun c => c)
        [("r/b.jpg", "X"), ("r/b (1).jpg", "X"), ("r/b (2).jpg", "Y")]
        ⟨"r/b.jpg", [(1, "r/b (1).jpg"), (2, "r/b (2).jpg")]⟩) "r/b.jpg"
      = some "X" ∧
    amLookup (reconciliationWorker (fun c => c != "") (fun c => c)
        [("r/b.jpg", "X"), ("r/b (1).jpg", "X"), ("r/b (2).jpg", "Y")]
        ⟨"r/b.jpg", [(1, "r/b (1).jpg"), (2, "r/b (2).jpg")]⟩) "r/b (1).jpg"
      = (if (("X" : String) == "X") = true then none else some "X") ∧
    amLookup (reconciliationWorker (fun c => c != "") (fun c => c)
        [("r/b.jpg", "X"), ("r/b (1).jpg", "X"), ("r/b (2).jpg", "Y")]
        ⟨"r/b.jpg", [(1, "r/b (1).jpg"), (2, "r/b (2).jpg")]⟩) "r/b (2).jpg"
      = (if (("Y" : String) == "X") = true then none else some "Y") := by
  have h := C6_dedup_exact (fun c => c != "") (fun c => c)
    ⟨"r/b.jpg", [(1, "r/b (1).jpg"), (2, "r/b (2).jpg")]⟩
    [("r/b.jpg", "X"), ("r/b (1).jpg", "X"), ("r/b (2).jpg", "Y")] "X"
    (by decide) (by decide) (by decide) (by decide) (by decide) (by decide)
  refine ⟨h.1, ?_, ?_⟩
  · exact h.2.1 (1, "r/b (1).jpg") (by decide) "X" (by decide)
  · exact h.2.1 (2, "r/b (2).jpg") (by decide) "Y" (by decide)

/-! ## Claim C10: ProcessDirectory returns every remaining file -/

theorem mem_amInsert {α β : Type} [BEq α] [LawfulBEq α] {m : List (α × β)}
    {k : α} {v : β} {e : α × β} (h : e ∈ amInsert m k v) :
    e ∈ m ∨ e = (k, v) := by
  unfold amInsert at h
  by_cases hk : amHasKey m k = true
  · rw [if_pos hk] at h
    rcases List.mem_map.mp h with ⟨q, hq, hqe⟩
    by_cases hq1 : (q.1 == k) = true
    · rw [if_pos hq1] at hqe
      exact Or.inr hqe.symm
    · rw [if_neg hq1] at hqe
      exact Or.inl (hqe ▸ hq)
  · rw [if_neg hk] at h
    rcases List.mem_append.mp h with h' | h'
    · exact Or.inl h'
    · exact Or.inr (List.mem_singleton.mp h')

theorem scanStep_WF (groups : List (String × FileGroup)) (path : String)
    (h : ∀ kg ∈ groups, GroupImageWF kg.2) :
    ∀ kg ∈ scanStep groups path, GroupImageWF kg.2 := by
  intro kg hkg
  by_cases himg : isImageExtension path = true
  · have hs : scanStep groups path =
        match parseGroupedName (fileNameOf path) with
        | none => groups
        | some (base, numOpt, ext) =>
          let key := strToLower (joinPath (dirOf path) (base ++ ext))
          let g0 := (amLookup groups key).getD ⟨"", []⟩
          match numOpt with
          | none => amInsert groups key { g0 with basePath := path }
          | some n =>
            if n > 0 then
              amInsert groups key
                { g0 with numberedFiles := amInsert g0.numberedFiles n path }
            else amInsert groups key g0 := by
      unfold scanStep
      rw [if_neg (by rw [himg]; simp)]
    rw [hs] at hkg
    cases hp : parseGroupedName (fileNameOf path) with
    | none =>
      rw [hp] at hkg
      exact h kg hkg
    | some parsed =>
      obtain ⟨base, numOpt, ext⟩ := parsed
      rw [hp] at hkg
      have hg0 : GroupImageWF
          ((amLookup groups (strToLower (joinPath (dirOf path) (base ++ ext)))).getD
            ⟨"", []⟩) := by
        cases hl : amLookup groups (strToLower (joinPath (dirOf path) (base ++ ext))) with
        | none => exact ⟨Or.inl rfl, by intro pr hpr; cases hpr⟩
        | some g => exact h _ (mem_of_amLookup_eq_some hl)
      set key := strToLower (joinPath (dirOf path) (base ++ ext)) with hkey
      set g0 := (amLookup groups key).getD ⟨"", []⟩ with hg0def
      cases numOpt with
      | none =>
        rcases mem_amInsert hkg with hin | hin
        · exact h kg hin
        · rw [hin]
          exact ⟨Or.inr himg, hg0.2⟩
      | some n =>
        have hkg' : kg ∈ (if n > 0 then
            amInsert groups key
              { g0 with numberedFiles := amInsert g0.numberedFiles n path }
            else amInsert groups key g0) := hkg
        by_cases hn : n > 0
        · rw [if_pos hn] at hkg'
          rcases mem_amInsert hkg' with hin | hin
          · exact h kg hin
          · rw [hin]
            refine ⟨hg0.1, ?_⟩
            intro pr hpr
            rcases mem_amInsert hpr with hin' | hin'
            · exact hg0.2 pr hin'
            · rw [hin']
              exact himg
        · rw [if_neg hn] at hkg'
          rcases mem_amInsert hkg' with hin | hin
          · exact h kg hin
          · rw [hin]
            exact hg0
  · have hs : scanStep groups path = groups := by
      unfold scanStep
      rw [if_pos]
      have : isImageExtension path = false := by simpa using himg
      rw [this]
      rfl
    rw [hs] at hkg
    exact h kg hkg

theorem scanAndGroupFiles_WF (files : List String) :
    ∀ kg ∈ scanAndGroupFiles files, GroupImageWF kg.2 := by
  suffices hgen : ∀ (fl : List String) (acc : List (String × FileGroup)),
      (∀ kg ∈ acc, GroupImageWF kg.2) →
      ∀ kg ∈ fl.foldl scanStep acc, GroupImageWF kg.2 by
    exact hgen files [] (by intro kg hkg; cases hkg)
  intro fl
  induction fl with
  | nil => intro acc hacc; exact hacc
  | cons f t ih =>
    intro acc hacc
    exact ih (scanStep acc f) (scanStep_WF acc f hacc)

theorem mem_fsRemove_of_ne {fs : List (String × String)} {p c : String}
    (r : String) (h : (p, c) ∈ fs) (hne : p ≠ r) : (p, c) ∈ fsRemove fs r := by
  unfold fsRemove amDelete
  refine List.mem_filter.mpr ⟨h, ?_⟩
  simp [hne]

theorem mem_fsRename_of_ne {fs : List (String × String)} {p c : String}
    (src dst : String) (h : (p, c) ∈ fs) (hne : p ≠ src) :
    (p, c) ∈ fsRename fs src dst := by
  unfold fsRename
  have hmm := List.mem_map_of_mem
    (fun e : String × String => if e.1 == src then (dst, e.2) else e) h
  have h2 : (fun e : String × String => if e.1 == src then (dst, e.2) else e)
      (p, c) = (p, c) := by
    show (if ((p, c).1 == src) = true then (dst, (p, c).2) else (p, c)) = (p, c)
    rw [if_neg (by simpa using hne)]
  rwa [h2] at hmm

theorem mem_dedupVariants (sha : String → String) (baseHash : String)
    (variants : List (Nat × String)) (p c : String)
    (hne : ∀ pr ∈ variants, pr.2 ≠ p) :
    ∀ fs, (p, c) ∈ fs → (p, c) ∈ dedupVariants sha baseHash variants fs := by
  induction variants with
  | nil => intro fs h; exact h
  | cons v t ih =>
    intro fs h
    have hvp : v.2 ≠ p := hne v (List.mem_cons_self v t)
    have ht : ∀ pr ∈ t, pr.2 ≠ p := fun pr hpr =>
      hne pr (List.mem_cons_of_mem v hpr)
    cases hlv : amLookup fs v.2 with
    | none =>
      have hstep : dedupVariants sha baseHash (v :: t) fs
          = dedupVariants sha baseHash t fs := by
        show dedupVariants sha baseHash t
          (match amLookup fs v.2 with
           | none => fs
           | some c => if sha c == baseHash then fsRemove fs v.2 else fs) = _
        rw [hlv]
      rw [hstep]
      exact ih ht fs h
    | some cv =>
      have hstep : dedupVariants sha baseHash (v :: t) fs
          = dedupVariants sha baseHash t
              (if sha cv == baseHash then fsRemove fs v.2 else fs) := by
        show dedupVariants sha baseHash t
          (match amLookup fs v.2 with
           | none => fs
           | some c => if sha c == baseHash then fsRemove fs v.2 else fs) = _
        rw [hlv]
      rw [hstep]
      by_cases hh : (sha cv == baseHash) = true
      · rw [if_pos hh]
        exact ih ht _ (mem_fsRemove_of_ne v.2 h (fun hcon => hvp hcon.symm))
      · rw [if_neg hh]
        exact ih ht fs h

theorem mem_reconciliationWorker_of_nonimage (decode : String → Bool)
    (sha : String → String) (g : FileGroup) (hWF : GroupImageWF g)
    (fs : List (String × String)) (p c : String) (hmem : (p, c) ∈ fs)
    (hni : isImageExtension p = false) :
    (p, c) ∈ reconciliationWorker decode sha fs g := by
  have hvar : ∀ pr ∈ g.numberedFiles, pr.2 ≠ p := by
    intro pr hpr hcon
    have := hWF.2 pr hpr
    rw [hcon, hni] at this
    cases this
  unfold reconciliationWorker
  by_cases hempty : g.numberedFiles.isEmpty = true
  · rw [if_pos hempty]
    exact hmem
  · rw [if_neg hempty]
    by_cases hbp : (g.basePath == "") = true
    · rw [if_pos hbp]
      exact hmem
    · rw [if_neg hbp]
      have hbase : isImageExtension g.basePath = true := by
        rcases hWF.1 with h | h
        · exact absurd (by rw [h]; exact beq_self_eq_true "") hbp
        · exact h
      have hpb : p ≠ g.basePath := by
        intro hcon
        rw [hcon, hbase] at hni
        cases hni
      by_cases hdam : isImageFileDamaged decode fs g.basePath = true
      · rw [if_pos hdam]
        have heq : findAndExecuteRepair decode g fs =
            match specRepairIndex decode g fs with
            | none => fs
            | some j => fsRename (fsRemove fs g.basePath)
                (candidatePath g.basePath j) g.basePath := by
          unfold findAndExecuteRepair specRepairIndex
          exact repairLoop_eq_find decode g fs maxRepairAttempts 1
        rw [heq]
        cases hsr : specRepairIndex decode g fs with
        | none => exact hmem
        | some i =>
          have hpres := (repairSearch_found decode g fs maxRepairAttempts 1 i
            hsr).1
          rcases List.any_eq_true.mp hpres with ⟨pr, hpr, hprc⟩
          have hcand : p ≠ candidatePath g.basePath i := by
            intro hcon
            exact hvar pr hpr ((eq_of_beq hprc).trans hcon.symm)
          exact mem_fsRename_of_ne _ _
            (mem_fsRemove_of_ne _ hmem hpb) hcand
      · rw [if_neg hdam]
        cases hbc : amLookup fs g.basePath with
        | none => exact hmem
        | some bc =>
          exact mem_dedupVariants sha (sha bc) g.numberedFiles p c hvar fs hmem

/-- C10: `ProcessDirectory` returns exactly the files remaining under the
root after reconciliation — not only the ones that decode as images.  In
particular (i) the returned list is the file list of the filesystem left by
the reconciliation pass, whatever it contains, (ii) every non-image file
survives reconciliation untouched (with its contents) and is therefore in
the returned list, and (iii) a group with numbered variants but no base
file, like a group with no variants, is skipped entirely: the worker leaves
every file untouched. -/
theorem C10_process_directory_returns_all_files (decode : String → Bool)
    (sha : String → String) (fs : List (String × String)) :
    (processDirectory decode sha fs).finalFiles
      = (processDirectory decode sha fs).fs.map Prod.fst ∧
    (∀ p c, (p, c) ∈ fs → isImageExtension p = false →
      (p, c) ∈ (processDirectory decode sha fs).fs) ∧
    (∀ (fs' : List (String × String)) (g : FileGroup),
      g.basePath = "" ∨ g.numberedFiles.isEmpty = true →
      reconciliationWorker decode sha fs' g = fs') := by
  refine ⟨rfl, ?_, ?_⟩
  · intro p c hmem hni
    have hWFall := scanAndGroupFiles_WF (fs.map Prod.fst)
    show (p, c) ∈ (scanAndGroupFiles (fs.map Prod.fst)).foldl
      (fun acc kg => reconciliationWorker decode sha acc kg.2) fs
    have hgen : ∀ (gl : List (String × FileGroup)),
        (∀ kg ∈ gl, GroupImageWF kg.2) →
        ∀ acc, (p, c) ∈ acc →
        (p, c) ∈ gl.foldl (fun a kg => reconciliationWorker decode sha a kg.2) acc := by
      intro gl
      induction gl with
      | nil => intro _ acc h; exact h
      | cons kg t ih =>
        intro hWF acc h
        exact ih (fun x hx => hWF x (List.mem_cons_of_mem kg hx)) _
          (mem_reconciliationWorker_of_nonimage decode sha kg.2
            (hWF kg (List.mem_cons_self kg t)) acc p c h hni)
    exact hgen _ hWFall fs hmem
  · intro fs' g hg
    unfold reconciliationWorker
    by_cases hempty : g.numberedFiles.isEmpty = true
    · rw [if_pos hempty]
    · rw [if_neg hempty]
      rcases hg with h | h
      · rw [if_pos (by rw [h]; exact beq_self_eq_true "")]
      · exact absurd h hempty

/-- Witness for C10: a non-image file `r/notes.txt` and a base-less group
(`r/c (1).jpg` with no `r/c.jpg`) both survive and are returned. -/
theorem C10_process_directory_returns_all_files_witness :
    (processDirectory (fun c => c == "GOOD") (fun c => c)
        [("r/notes.txt", "T"), ("r/c (1).jpg", "GOOD")]).finalFiles
      = (processDirectory (fun c => c == "GOOD") (fun c => c)
        [("r/notes.txt", "T"), ("r/c (1).jpg", "GOOD")]).fs.map Prod.fst ∧
    ("r/notes.txt", "T") ∈ (processDirectory (fun c => c == "GOOD")
        (fun c => c) [("r/notes.txt", "T"), ("r/c (1).jpg", "GOOD")]).fs ∧
    reconciliationWorker (fun c => c == "GOOD") (fun c => c)
        [("r/notes.txt", "T"), ("r/c (1).jpg", "GOOD")]
        ⟨"", [(1, "r/c (1).jpg")]⟩
      = [("r/notes.txt", "T"), ("r/c (1).jpg", "GOOD")] := by
  have h := C10_process_directory_returns_all_files (fun c => c == "GOOD")
    (fun c => c) [("r/notes.txt", "T"), ("r/c (1).jpg", "GOOD")]
  refine ⟨h.1, ?_, ?_⟩
  · exact h.2.1 "r/notes.txt" "T" (by decide) (by decide)
  · exact h.2.2 [("r/notes.txt", "T"), ("r/c (1).jpg", "GOOD")]
      ⟨"", [(1, "r/c (1).jpg")]⟩ (Or.inl rfl)

/-! ## Claims C8 and C2: the ingestor's image worker and collector -/

theorem imageWorker_readFail (decode : String → Option String)
    (sha : String → String) (pHash thumb : String → String)
    (findOrCreate : String → String → Option Series) (now freshId : Nat)
    (fs : List (String × String)) (filePath : String)
    (h : amLookup fs filePath = none) :
    imageWorker decode sha pHash thumb findOrCreate now freshId fs filePath
      = (fs, none) := by
  unfold imageWorker
  rw [h]

theorem imageWorker_read (decode : String → Option String)
    (sha : String → String) (pHash thumb : String → String)
    (findOrCreate : String → String → Option Series) (now freshId : Nat)
    (fs : List (String × String)) (filePath fileBytes : String)
    (h : amLookup fs filePath = some fileBytes) :
    imageWorker decode sha pHash thumb findOrCreate now freshId fs filePath
      = imageWorkerBody decode sha pHash thumb findOrCreate now freshId fs
          filePath fileBytes := by
  unfold imageWorker
  rw [h]

theorem imageWorkerBody_decodeFail (decode : String → Option String)
    (sha : String → String) (pHash thumb : String → String)
    (findOrCreate : String → String → Option Series) (now freshId : Nat)
    (fs : List (String × String)) (filePath fileBytes : String)
    (h : decode fileBytes = none) :
    imageWorkerBody decode sha pHash thumb findOrCreate now freshId fs filePath
      fileBytes = (fsRemove fs filePath, none) := by
  unfold imageWorkerBody
  rw [h]

theorem imageWorkerBody_hashEmpty (decode : String → Option String)
    (sha : String → String) (pHash thumb : String → String)
    (findOrCreate : String → String → Option Series) (now freshId : Nat)
    (fs : List (String × String)) (filePath fileBytes img : String)
    (h1 : decode fileBytes = some img) (h2 : (sha fileBytes == "") = true) :
    imageWorkerBody decode sha pHash thumb findOrCreate now freshId fs filePath
      fileBytes = (fs, none) := by
  unfold imageWorkerBody
  simp only [h1]
  rw [if_pos h2]

theorem imageWorkerBody_seriesFail (decode : String → Option String)
    (sha : String → String) (pHash thumb : String → String)
    (findOrCreate : String → String → Option Series) (now freshId : Nat)
    (fs : List (String × String)) (filePath fileBytes img : String)
    (h1 : decode fileBytes = some img) (h2 : (sha fileBytes == "") = false)
    (h3 : findOrCreate (fileNameOf (dirOf filePath)) filePath = none) :
    imageWorkerBody decode sha pHash thumb findOrCreate now freshId fs filePath
      fileBytes = (fs, none) := by
  unfold imageWorkerBody
  simp only [h1]
  rw [if_neg (by rw [h2]; exact Bool.false_ne_true), h3]

theorem imageWorkerBody_emit (decode : String → Option String)
    (sha : String → String) (pHash thumb : String → String)
    (findOrCreate : String → String → Option Series) (now freshId : Nat)
    (fs : List (String × String)) (filePath fileBytes img : String)
    (series : Series) (h1 : decode fileBytes = some img)
    (h2 : (sha fileBytes == "") = false)
    (h3 : findOrCreate (fileNameOf (dirOf filePath)) filePath = some series) :
    imageWorkerBody decode sha pHash thumb findOrCreate now freshId fs filePath
      fileBytes = (fs, some
        { writeModel := some
            { filterSeriesId := series.id, filterFileName := fileNameOf filePath,
              setFilePath := filePath, setFileHash := sha fileBytes,
              setPerceptualHash := pHash img, setThumbnail := thumb img,
              setUpdatedAt := now, onInsertId := freshId,
              onInsertSeriesId := series.id,
              onInsertFileName := fileNameOf filePath,
              onInsertCreatedAt := now },
          overwrittenPath := "" }) := by
  unfold imageWorkerBody
  simp only [h1]
  rw [if_neg (by rw [h2]; exact Bool.false_ne_true), h3]

theorem imageWorker_result_congr (decode : String → Option String)
    (sha : String → String) (pHash thumb : String → String)
    (findOrCreate : String → String → Option Series) (now freshId : Nat)
    (fs fs' : List (String × String)) (j : String)
    (h : amLookup fs j = amLookup fs' j) :
    (imageWorker decode sha pHash thumb findOrCreate now freshId fs j).2
      = (imageWorker decode sha pHash thumb findOrCreate now freshId fs' j).2 := by
  cases hv : amLookup fs' j with
  | none =>
    rw [imageWorker_readFail decode sha pHash thumb findOrCreate now freshId fs
      j (h.trans hv), imageWorker_readFail decode sha pHash thumb findOrCreate
      now freshId fs' j hv]
  | some fb =>
    rw [imageWorker_read decode sha pHash thumb findOrCreate now freshId fs j
      fb (h.trans hv), imageWorker_read decode sha pHash thumb findOrCreate now
      freshId fs' j fb hv]
    cases hd : decode fb with
    | none =>
      rw [imageWorkerBody_decodeFail decode sha pHash thumb findOrCreate now
        freshId fs j fb hd, imageWorkerBody_decodeFail decode sha pHash thumb
        findOrCreate now freshId fs' j fb hd]
    | some img =>
      by_cases hh : (sha fb == "") = true
      · rw [imageWorkerBody_hashEmpty decode sha pHash thumb findOrCreate now
          freshId fs j fb img hd hh, imageWorkerBody_hashEmpty decode sha pHash
          thumb findOrCreate now freshId fs' j fb img hd hh]
      · have hh' : (sha fb == "") = false := Bool.eq_false_iff.mpr hh
        cases hs : findOrCreate (fileNameOf (dirOf j)) j with
        | none =>
          rw [imageWorkerBody_seriesFail decode sha pHash thumb findOrCreate now
            freshId fs j fb img hd hh' hs, imageWorkerBody_seriesFail decode sha
            pHash thumb findOrCreate now freshId fs' j fb img hd hh' hs]
        | some series =>
          rw [imageWorkerBody_emit decode sha pHash thumb findOrCreate now
            freshId fs j fb img series hd hh' hs, imageWorkerBody_emit decode
            sha pHash thumb findOrCreate now freshId fs' j fb img series hd hh'
            hs]

theorem imageWorker_fs_lookup_preserved (decode : String → Option String)
    (sha : String → String) (pHash thumb : String → String)
    (findOrCreate : String → String → Option Series) (now freshId : Nat)
    (fs : List (String × String)) (j q : String) (hne : q ≠ j) :
    amLookup (imageWorker decode sha pHash thumb findOrCreate now freshId fs j).1 q
      = amLookup fs q := by
  cases hv : amLookup fs j with
  | none =>
    rw [imageWorker_readFail decode sha pHash thumb findOrCreate now freshId fs
      j hv]
  | some fb =>
    rw [imageWorker_read decode sha pHash thumb findOrCreate now freshId fs j
      fb hv]
    cases hd : decode fb with
    | none =>
      rw [imageWorkerBody_decodeFail decode sha pHash thumb findOrCreate now
        freshId fs j fb hd]
      show amLookup (amDelete fs j) q = amLookup fs q
      rw [amLookup_amDelete, if_neg (fun hcon => hne (eq_of_beq hcon).symm)]
    | some img =>
      by_cases hh : (sha fb == "") = true
      · rw [imageWorkerBody_hashEmpty decode sha pHash thumb findOrCreate now
          freshId fs j fb img hd hh]
      · have hh' : (sha fb == "") = false := Bool.eq_false_iff.mpr hh
        cases hs : findOrCreate (fileNameOf (dirOf j)) j with
        | none =>
          rw [imageWorkerBody_seriesFail decode sha pHash thumb findOrCreate now
            freshId fs j fb img hd hh' hs]
        | some series =>
          rw [imageWorkerBody_emit decode sha pHash thumb findOrCreate now
            freshId fs j fb img series hd hh' hs]

theorem imageWorker_fs_lookup_congr (decode : String → Option String)
    (sha : String → String) (pHash thumb : String → String)
    (findOrCreate : String → String → Option Series) (now freshId : Nat)
    (fs fs' : List (String × String)) (j q : String)
    (hr : amLookup fs j = amLookup fs' j) (hq : amLookup fs q = amLookup fs' q) :
    amLookup (imageWorker decode sha pHash thumb findOrCreate now freshId fs j).1 q
      = amLookup (imageWorker decode sha pHash thumb findOrCreate now freshId fs' j).1 q := by
  cases hv : amLookup fs' j with
  | none =>
    rw [imageWorker_readFail decode sha pHash thumb findOrCreate now freshId fs
      j (hr.trans hv), imageWorker_readFail decode sha pHash thumb findOrCreate
      now freshId fs' j hv]
    exact hq
  | some fb =>
    rw [imageWorker_read decode sha pHash thumb findOrCreate now freshId fs j
      fb (hr.trans hv), imageWorker_read decode sha pHash thumb findOrCreate
      now freshId fs' j fb hv]
    cases hd : decode fb with
    | none =>
      rw [imageWorkerBody_decodeFail decode sha pHash thumb findOrCreate now
        freshId fs j fb hd, imageWorkerBody_decodeFail decode sha pHash thumb
        findOrCreate now freshId fs' j fb hd]
      show amLookup (amDelete fs j) q = amLookup (amDelete fs' j) q
      rw [amLookup_amDelete, amLookup_amDelete]
      by_cases hjq : (j == q) = true
      · rw [if_pos hjq, if_pos hjq]
      · rw [if_neg hjq, if_neg hjq]
        exact hq
    | some img =>
      by_cases hh : (sha fb == "") = true
      · rw [imageWorkerBody_hashEmpty decode sha pHash thumb findOrCreate now
          freshId fs j fb img hd hh, imageWorkerBody_hashEmpty decode sha pHash
          thumb findOrCreate now freshId fs' j fb img hd hh]
        exact hq
      · have hh' : (sha fb == "") = false := Bool.eq_false_iff.mpr hh
        cases hs : findOrCreate (fileNameOf (dirOf j)) j with
        | none =>
          rw [imageWorkerBody_seriesFail decode sha pHash thumb findOrCreate now
            freshId fs j fb img hd hh' hs, imageWorkerBody_seriesFail decode sha
            pHash thumb findOrCreate now freshId fs' j fb img hd hh' hs]
          exact hq
        | some series =>
          rw [imageWorkerBody_emit decode sha pHash thumb findOrCreate now
            freshId fs j fb img series hd hh' hs, imageWorkerBody_emit decode
            sha pHash thumb findOrCreate now freshId fs' j fb img series hd hh'
            hs]
          exact hq

theorem imageWorkerRun_results_congr (decode : String → Option String)
    (sha : String → String) (pHash thumb : String → String)
    (findOrCreate : String → String → Option Series) (now freshId : Nat) :
    ∀ (rest : List String) (fs fs' : List (String × String)),
      (∀ q ∈ rest, amLookup fs q = amLookup fs' q) →
      (imageWorkerRun decode sha pHash thumb findOrCreate now freshId fs rest).2
        = (imageWorkerRun decode sha pHash thumb findOrCreate now freshId fs' rest).2 := by
  intro rest
  induction rest with
  | nil => intro fs fs' _; rfl
  | cons r t ih =>
    intro fs fs' h
    show ((imageWorker decode sha pHash thumb findOrCreate now freshId fs r).2.toList
        ++ (imageWorkerRun decode sha pHash thumb findOrCreate now freshId
          (imageWorker decode sha pHash thumb findOrCreate now freshId fs r).1 t).2)
      = ((imageWorker decode sha pHash thumb findOrCreate now freshId fs' r).2.toList
        ++ (imageWorkerRun decode sha pHash thumb findOrCreate now freshId
          (imageWorker decode sha pHash thumb findOrCreate now freshId fs' r).1 t).2)
    rw [imageWorker_result_congr decode sha pHash thumb findOrCreate now freshId
      fs fs' r (h r (List.mem_cons_self r t))]
    congr 1
    apply ih
    intro q hq
    exact imageWorker_fs_lookup_congr decode sha pHash thumb findOrCreate now
      freshId fs fs' r q (h r (List.mem_cons_self r t))
      (h q (List.mem_cons_of_mem r hq))

/-- C8: the ingestor's image worker (i) deletes a file whose bytes fail to
decode and emits no catalog write for it; (ii) on successful decode emits
exactly one upsert whose filter is `(seriesId, fileName)`, whose `$set`
carries content hash, perceptual hash, thumbnail, file path and `updatedAt`,
and whose `$setOnInsert` carries id, seriesId, fileName and `createdAt`;
(iii) applying such an upsert to a catalog updates only the `$set` fields
of an existing `(seriesId, fileName)` record — id, seriesId, fileName and
`createdAt` are untouched — and inserts a full record only when no record
matches; and (iv) one job's read or decode failure never aborts the batch:
the results of the remaining jobs are exactly what they would have been
without the failed job. -/
theorem C8_image_worker_contract (decode : String → Option String)
    (sha : String → String) (pHash thumb : String → String)
    (findOrCreate : String → String → Option Series) (now freshId : Nat) :
    (∀ fs filePath fileBytes, amLookup fs filePath = some fileBytes →
      decode fileBytes = none →
      imageWorker decode sha pHash thumb findOrCreate now freshId fs filePath
        = (fsRemove fs filePath, none)) ∧
    (∀ fs filePath fileBytes img series,
      amLookup fs filePath = some fileBytes →
      decode fileBytes = some img →
      (sha fileBytes == "") = false →
      findOrCreate (fileNameOf (dirOf filePath)) filePath = some series →
      imageWorker decode sha pHash thumb findOrCreate now freshId fs filePath
        = (fs, some
            { writeModel := some
                { filterSeriesId := series.id,
                  filterFileName := fileNameOf filePath,
                  setFilePath := filePath, setFileHash := sha fileBytes,
                  setPerceptualHash := pHash img, setThumbnail := thumb img,
                  setUpdatedAt := now, onInsertId := freshId,
                  onInsertSeriesId := series.id,
                  onInsertFileName := fileNameOf filePath,
                  onInsertCreatedAt := now },
              overwrittenPath := "" })) ∧
    (∀ catalog (w : ImageUpsert) (r : ImageRecord), r ∈ catalog →
      (r.seriesId == w.filterSeriesId && r.fileName == w.filterFileName) = true →
      { r with filePath := w.setFilePath, fileHash := w.setFileHash,
               perceptualHash := w.setPerceptualHash,
               thumbnail := w.setThumbnail, updatedAt := w.setUpdatedAt }
        ∈ applyImageUpsert catalog w) ∧
    (∀ catalog (w : ImageUpsert),
      (catalog.any (fun r => r.seriesId == w.filterSeriesId
        && r.fileName == w.filterFileName)) = false →
      applyImageUpsert catalog w = catalog ++
        [{ id := w.onInsertId, seriesId := w.onInsertSeriesId,
           fileName := w.onInsertFileName, filePath := w.setFilePath,
           fileHash := w.setFileHash, perceptualHash := w.setPerceptualHash,
           thumbnail := w.setThumbnail, createdAt := w.onInsertCreatedAt,
           updatedAt := w.setUpdatedAt }]) ∧
    (∀ fs j rest, j ∉ rest →
      (imageWorkerRun decode sha pHash thumb findOrCreate now freshId fs
        (j :: rest)).2
        = (imageWorker decode sha pHash thumb findOrCreate now freshId fs j).2.toList
          ++ (imageWorkerRun decode sha pHash thumb findOrCreate now freshId fs
            rest).2) := by
  refine ⟨?_, ?_, ?_, ?_, ?_⟩
  · intro fs filePath fileBytes hread hdec
    rw [imageWorker_read decode sha pHash thumb findOrCreate now freshId fs
      filePath fileBytes hread]
    exact imageWorkerBody_decodeFail decode sha pHash thumb findOrCreate now
      freshId fs filePath fileBytes hdec
  · intro fs filePath fileBytes img series hread hdec hhash hser
    rw [imageWorker_read decode sha pHash thumb findOrCreate now freshId fs
      filePath fileBytes hread]
    exact imageWorkerBody_emit decode sha pHash thumb findOrCreate now freshId
      fs filePath fileBytes img series hdec hhash hser
  · intro catalog w r hr hm
    unfold applyImageUpsert
    rw [if_pos (List.any_eq_true.mpr ⟨r, hr, hm⟩)]
    have hmm := List.mem_map_of_mem (fun r : ImageRecord =>
      if r.seriesId == w.filterSeriesId && r.fileName == w.filterFileName then
        { r with filePath := w.setFilePath, fileHash := w.setFileHash,
                 perceptualHash := w.setPerceptualHash,
                 thumbnail := w.setThumbnail, updatedAt := w.setUpdatedAt }
      else r) hr
    have h2 : (fun r : ImageRecord =>
        if r.seriesId == w.filterSeriesId && r.fileName == w.filterFileName then
          { r with filePath := w.setFilePath, fileHash := w.setFileHash,
                   perceptualHash := w.setPerceptualHash,
                   thumbnail := w.setThumbnail, updatedAt := w.setUpdatedAt }
        else r) r
        = { r with filePath := w.setFilePath, fileHash := w.setFileHash,
                   perceptualHash := w.setPerceptualHash,
                   thumbnail := w.setThumbnail, updatedAt := w.setUpdatedAt } := by
      simp [hm]
    rwa [h2] at hmm
  · intro catalog w hno
    unfold applyImageUpsert
    rw [if_neg (by rw [hno]; exact Bool.false_ne_true)]
  · intro fs j rest hj
    show ((imageWorker decode sha pHash thumb findOrCreate now freshId fs j).2.toList
        ++ (imageWorkerRun decode sha pHash thumb findOrCreate now freshId
          (imageWorker decode sha pHash thumb findOrCreate now freshId fs j).1 rest).2)
      = _
    congr 1
    apply imageWorkerRun_results_congr
    intro q hq
    exact imageWorker_fs_lookup_preserved decode sha pHash thumb findOrCreate
      now freshId fs j q (fun hcon => hj (hcon ▸ hq))

/-- Witness for C8 at concrete inputs: a corrupt file is deleted without a
catalog write, a decodable file produces the upsert, and the corrupt job
does not disturb the rest of the batch. -/
theorem C8_image_worker_contract_witness :
    imageWorker (fun c => if c == "OK" then some "IMG" else none)
        (fun c => "h" ++ c) (fun i => "p" ++ i) (fun i => "t" ++ i)
        (fun _ _ => some ⟨7, "A"⟩) 3 4
        [("lib/A/x.jpg", "BAD"), ("lib/A/y.jpg", "OK")] "lib/A/x.jpg"
      = (fsRemove [("lib/A/x.jpg", "BAD"), ("lib/A/y.jpg", "OK")] "lib/A/x.jpg",
         none) ∧
    imageWorker (fun c => if c == "OK" then some "IMG" else none)
        (fun c => "h" ++ c) (fun i => "p" ++ i) (fun i => "t" ++ i)
        (fun _ _ => some ⟨7, "A"⟩) 3 4
        [("lib/A/x.jpg", "BAD"), ("lib/A/y.jpg", "OK")] "lib/A/y.jpg"
      = ([("lib/A/x.jpg", "BAD"), ("lib/A/y.jpg", "OK")], some
          { writeModel := some
              { filterSeriesId := 7, filterFileName := fileNameOf "lib/A/y.jpg",
                setFilePath := "lib/A/y.jpg", setFileHash := "h" ++ "OK",
                setPerceptualHash := "p" ++ "IMG", setThumbnail := "t" ++ "IMG",
                setUpdatedAt := 3, onInsertId := 4, onInsertSeriesId := 7,
                onInsertFileName := fileNameOf "lib/A/y.jpg",
                onInsertCreatedAt := 3 },
            overwrittenPath := "" }) ∧
    (imageWorkerRun (fun c => if c == "OK" then some "IMG" else none)
        (fun c => "h" ++ c) (fun i => "p" ++ i) (fun i => "t" ++ i)
        (fun _ _ => some ⟨7, "A"⟩) 3 4
        [("lib/A/x.jpg", "BAD"), ("lib/A/y.jpg", "OK")]
        ["lib/A/x.jpg", "lib/A/y.jpg"]).2
      = (imageWorker (fun c => if c == "OK" then some "IMG" else none)
          (fun c => "h" ++ c) (fun i => "p" ++ i) (fun i => "t" ++ i)
          (fun _ _ => some ⟨7, "A"⟩) 3 4
          [("lib/A/x.jpg", "BAD"), ("lib/A/y.jpg", "OK")] "lib/A/x.jpg").2.toList
        ++ (imageWorkerRun (fun c => if c == "OK" then some "IMG" else none)
            (fun c => "h" ++ c) (fun i => "p" ++ i) (fun i => "t" ++ i)
            (fun _ _ => some ⟨7, "A"⟩) 3 4
            [("lib/A/x.jpg", "BAD"), ("lib/A/y.jpg", "OK")] ["lib/A/y.jpg"]).2 := by
  have h := C8_image_worker_contract
    (fun c => if c == "OK" then some "IMG" else none)
    (fun c => "h" ++ c) (fun i => "p" ++ i) (fun i => "t" ++ i)
    (fun _ _ => some ⟨7, "A"⟩) 3 4
  refine ⟨?_, ?_, ?_⟩
  · exact h.1 [("lib/A/x.jpg", "BAD"), ("lib/A/y.jpg", "OK")] "lib/A/x.jpg"
      "BAD" (by decide) (by decide)
  · exact h.2.1 [("lib/A/x.jpg", "BAD"), ("lib/A/y.jpg", "OK")] "lib/A/y.jpg"
      "OK" "IMG" ⟨7, "A"⟩ (by decide) (by decide) (by decide) (by decide)
  · exact h.2.2.2.2 [("lib/A/x.jpg", "BAD"), ("lib/A/y.jpg", "OK")]
      "lib/A/x.jpg" ["lib/A/y.jpg"] (by decide)

/-- C2 (code_bug): the overwritten-file report of `Sync` is empty on every
input — `imageWorker` never fills `imageResult.overwrittenPath`, so the
collector's accumulation loop and the `overwrittenFiles` list `Sync`
returns can never contain anything, no matter which files were silently
overwritten by earlier stages. -/
theorem C2_sync_overwritten_always_empty (decode : String → Option String)
    (sha : String → String) (pHash thumb : String → String)
    (findOrCreate : String → String → Option Series) (now freshId : Nat)
    (fs : List (String × String)) (jobs : List String) :
    syncOverwrittenFiles decode sha pHash thumb findOrCreate now freshId fs jobs
      = [] := by
  have hworker : ∀ (fs0 : List (String × String)) (j : String) (r : ImageResult),
      (imageWorker decode sha pHash thumb findOrCreate now freshId fs0 j).2
        = some r → r.overwrittenPath = "" := by
    intro fs0 j r hsome
    cases hv : amLookup fs0 j with
    | none =>
      rw [imageWorker_readFail decode sha pHash thumb findOrCreate now freshId
        fs0 j hv] at hsome
      cases hsome
    | some fb =>
      rw [imageWorker_read decode sha pHash thumb findOrCreate now freshId fs0
        j fb hv] at hsome
      cases hd : decode fb with
      | none =>
        rw [imageWorkerBody_decodeFail decode sha pHash thumb findOrCreate now
          freshId fs0 j fb hd] at hsome
        cases hsome
      | some img =>
        by_cases hh : (sha fb == "") = true
        · rw [imageWorkerBody_hashEmpty decode sha pHash thumb findOrCreate now
            freshId fs0 j fb img hd hh] at hsome
          cases hsome
        · have hh' : (sha fb == "") = false := Bool.eq_false_iff.mpr hh
          cases hs : findOrCreate (fileNameOf (dirOf j)) j with
          | none =>
            rw [imageWorkerBody_seriesFail decode sha pHash thumb findOrCreate
              now freshId fs0 j fb img hd hh' hs] at hsome
            cases hsome
          | some series =>
            rw [imageWorkerBody_emit decode sha pHash thumb findOrCreate now
              freshId fs0 j fb img series hd hh' hs] at hsome
            have := Option.some.inj hsome
            rw [← this]
  have hall : ∀ (js : List String) (fs0 : List (String × String)),
      ∀ r ∈ (imageWorkerRun decode sha pHash thumb findOrCreate now freshId
        fs0 js).2, r.overwrittenPath = "" := by
    intro js
    induction js with
    | nil => intro fs0 r hr; cases hr
    | cons j t ih =>
      intro fs0 r hr
      have hshape : (imageWorkerRun decode sha pHash thumb findOrCreate now
          freshId fs0 (j :: t)).2
          = (imageWorker decode sha pHash thumb findOrCreate now freshId fs0 j).2.toList
            ++ (imageWorkerRun decode sha pHash thumb findOrCreate now freshId
              (imageWorker decode sha pHash thumb findOrCreate now freshId fs0 j).1 t).2 := rfl
      rw [hshape] at hr
      rcases List.mem_append.mp hr with hr' | hr'
      · cases hv : (imageWorker decode sha pHash thumb findOrCreate now freshId
            fs0 j).2 with
        | none =>
          rw [hv] at hr'
          cases hr'
        | some r' =>
          rw [hv] at hr'
          rcases List.mem_singleton.mp hr' with rfl
          exact hworker fs0 j r hv
      · exact ih _ r hr'
  unfold syncOverwrittenFiles collectResults
  have hfilter : ((imageWorkerRun decode sha pHash thumb findOrCreate now
      freshId fs jobs).2.filter (fun r => r.overwrittenPath != "")) = [] := by
    rw [List.filter_eq_nil_iff]
    intro r hr
    rw [hall jobs fs r hr]
    simp
  rw [hfilter]
  rfl

/-! ## Claim C9: scan exclusivity -/

/-- C9 counterexample: the conflict check tests only the `running` state, so
two requests arriving while the first task is still `pending` (its
background worker not yet scheduled) are both accepted, and after both
workers claim their tasks two scans are `running` at once.  Each action in
the trace is a legal step of the program (a `StartNewScanTask` call or the
first locked section of a spawned `runScan`), and both start requests
returned task ids rather than conflicts — refuting "at most one scan runs
process-wide at any time". -/
theorem C9_counterexample_two_running :
    (startNewScanTask [] "a").2 = Except.ok "a" ∧
    (startNewScanTask [("a", TaskStatus.pending)] "b").2 = Except.ok "b" ∧
    countRunning (runTaskTrace []
      [TaskAction.start "a", TaskAction.start "b",
       TaskAction.claim "a", TaskAction.claim "b"]) = 2 := by
  refine ⟨rfl, rfl, rfl⟩

/-- C9 as amended: a request to start a scan is rejected with a conflict
error — creating no task — exactly when some existing task is in the
`running` state; otherwise a fresh task id is returned and the new task is
created in state `pending`.  (Because the new task is only `pending` until
its background worker claims it, this check alone does not bound the number
of concurrently running scans; see the counterexample trace.) -/
theorem C9_start_scan_conflict_amended (tasks : List (String × TaskStatus))
    (newId : String) :
    ((∃ t ∈ tasks, t.2 = TaskStatus.running) →
      startNewScanTask tasks newId =
        (tasks, Except.error "another scan task is already in progress")) ∧
    ((∀ t ∈ tasks, t.2 ≠ TaskStatus.running) →
      startNewScanTask tasks newId =
        (tasks ++ [(newId, TaskStatus.pending)], Except.ok newId)) := by
  constructor
  · rintro ⟨t, ht, hrun⟩
    unfold startNewScanTask
    rw [if_pos (List.any_eq_true.mpr ⟨t, ht, by rw [hrun]; rfl⟩)]
  · intro h
    unfold startNewScanTask
    rw [if_neg]
    intro hcon
    rcases List.any_eq_true.mp hcon with ⟨t, ht, htr⟩
    apply h t ht
    revert htr
    cases t.2 <;> intro htr
    · cases htr
    · rfl
    · cases htr
    · cases htr

/-- Witness for C9 as amended: one `running` task rejects, one `pending`
task does not. -/
theorem C9_start_scan_conflict_amended_witness :
    startNewScanTask [("a", TaskStatus.running)] "b" =
      ([("a", TaskStatus.running)],
        Except.error "another scan task is already in progress") ∧
    startNewScanTask [("a", TaskStatus.pending)] "b" =
      ([("a", TaskStatus.pending), ("b", TaskStatus.pending)], Except.ok "b") := by
  constructor
  · exact (C9_start_scan_conflict_amended [("a", TaskStatus.running)] "b").1
      ⟨("a", TaskStatus.running), List.mem_singleton.mpr rfl, rfl⟩
  · refine (C9_start_scan_conflict_amended [("a", TaskStatus.pending)] "b").2 ?_
    intro t ht
    rcases List.mem_singleton.mp ht with rfl
    exact fun hcon => TaskStatus.noConfusion hcon

end PICs
